import Mathlib

/-!
Shallow embedding of the rust-toml library (src/toml/lib.rs) and proofs about
its specification claims.

Modelling conventions:
* `u64` values are `Nat` with `% 2^64` where the 2014-era Rust code could wrap.
* `f64` is modelled exactly as `Rat`; the float grammar of the source only
  adds and divides by powers of ten, and no claim depends on rounding.
* The scanner (`Parser { rd, current_char, line }`) is modelled by the list of
  characters still to be consumed: `current_char` is the head (`Err` when the
  list is empty), `advance` drops the head.  The line counter is only used for
  `debug!` output in the source and is not modelled.
* The terminal condition of the underlying reader is a `Term`: a clean
  `EndOfFile` or an I/O fault with some payload.  It is only inspected by
  `Parser::to_err`, hence threaded as a parameter of the top-level loop only.
* `HashMap<String, Value>` is an association list preserving insertion order;
  the old `HashMap::insert` returns `true` iff the key was absent (replacing
  the value otherwise), `find_mut`-based in-place mutation becomes a
  functional update.
* Rust panics (`assert!`, `unreachable!`, `unwrap` failures) are modelled by
  `Option`/`Except` `none`/`error` results.
-/

namespace Toml

/-- Terminal state of the underlying byte source: clean end of file, or an
I/O fault with an abstract payload (models `IoError` with kind ≠ `EndOfFile`). -/
inductive Term where
  | eof : Term
  | ioerr (e : Nat) : Term
deriving DecidableEq

/-- `enum Error` of the source (lib.rs:68-75). -/
inductive Error where
  | ParseError : Error
  | ParseErrorInField (field : String) : Error
  | IOError (e : Nat) : Error
deriving DecidableEq

/-- `enum Value` of the source (lib.rs:32-43).  `String` is renamed `Str` to
avoid clashing with Lean's `String`; the `Table` bool is true iff the section
was already defined via a `[section]` header. -/
inductive Value where
  | NoValue : Value
  | Boolean (b : Bool) : Value
  | PosInt (n : Nat) : Value
  | NegInt (n : Nat) : Value
  | Float (q : Rat) : Value
  | Str (s : String) : Value
  | Datetime (y mo d h mi s : Nat) : Value
  | Array (elems : List Value) : Value
  | TableArray (elems : List Value) : Value
  | Table (opened : Bool) (map : List (String × Value)) : Value

/-- The map payload of a `Table`: `Box<HashMap<String, Value>>` as an
insertion-ordered association list. -/
abbrev Tbl := List (String × Value)

/-- `HashMap::find` / `find_mut`: first binding of the key. -/
def tblFind (k : String) : Tbl → Option Value
  | [] => none
  | (k', v) :: rest => if k' = k then some v else tblFind k rest

/-- Functional counterpart of writing a new value through a `find_mut` borrow:
replace the (first) binding of `k`.  Only ever used when `k` is present. -/
def tblUpdate (k : String) (v : Value) : Tbl → Tbl
  | [] => []
  | (k', v') :: rest => if k' = k then (k', v) :: rest else (k', v') :: tblUpdate k v rest

/-- Old-Rust `HashMap::insert`: replaces an existing binding and returns
`true` iff the key did not already exist. -/
def tblInsert (k : String) (v : Value) : Tbl → Bool × Tbl
  | [] => (true, [(k, v)])
  | (k', v') :: rest =>
    if k' = k then (false, (k', v) :: rest)
    else
      let r := tblInsert k v rest
      (r.1, (k', v') :: r.2)

/-- `HashMap::pop`: remove the binding of `k`, returning its value. -/
def tblPop (k : String) : Tbl → Option Value × Tbl
  | [] => (none, [])
  | (k', v) :: rest =>
    if k' = k then (some v, rest)
    else
      let r := tblPop k rest
      (r.1, (k', v) :: r.2)

/-- `have_equiv_types` (lib.rs:83-96): TOML array homogeneity check. -/
def have_equiv_types : Value → Value → Bool
  | .Boolean _, .Boolean _ => true
  | .PosInt _, .PosInt _ => true
  | .PosInt _, .NegInt _ => true
  | .NegInt _, .PosInt _ => true
  | .NegInt _, .NegInt _ => true
  | .Float _, .Float _ => true
  | .Str _, .Str _ => true
  | .Datetime _ _ _ _ _ _, .Datetime _ _ _ _ _ _ => true
  | .Array _, .Array _ => true
  | _, _ => false

/-- `enum PathElement` (lib.rs:98-101). -/
inductive PathElement where
  | Key (k : String) : PathElement
  | Idx (i : Nat) : PathElement

/-- Decimal value of a digit-character list (most significant first). -/
def decimalValue (ds : List Char) : Nat :=
  ds.foldl (fun a c => a * 10 + (c.toNat - 48)) 0

/-- `from_str::<uint>` on a path segment: all-decimal-digit, non-empty,
in-range strings parse; everything else is `None`.  (The exact overflow
behaviour of the 2014 stdlib is immaterial here: no claim distinguishes it.) -/
def from_str_uint (s : String) : Option Nat :=
  if s.data ≠ [] ∧ s.data.all (fun c => '0' ≤ c ∧ c ≤ '9') ∧ decimalValue s.data < 2 ^ 64
  then some (decimalValue s.data) else none

/-- `LookupValue::lookup_in` for `uint` (lib.rs:107-116) and `&str`
(lib.rs:118-127), merged through `PathElement` (lib.rs:129-136).
Note the `Idx` case matches only `TableArray`, not `Array`. -/
def lookup_elm (v : Value) : PathElement → Option Value
  | .Key k =>
    match v with
    | .Table _ map => tblFind k map
    | _ => none
  | .Idx i =>
    match v with
    | .TableArray tableary => tableary.get? i
    | _ => none

/-- `name.split('.')` / `path.split_str(".")`: split a character list at dots;
always returns at least one (possibly empty) segment. -/
def splitDotsAux (acc : List Char) : List Char → List String
  | [] => [String.mk acc]
  | c :: ls => if c = '.' then String.mk acc :: splitDotsAux [] ls else splitDotsAux (acc ++ [c]) ls

def splitDots (s : String) : List String := splitDotsAux [] s.data

/-- `Value::lookup` (lib.rs:211-228): split the dotted path, classify each
segment (`from_str::<uint>` success means an index, otherwise a key) and
chase it through the tree.  The for-loop with `break` is a fold whose `none`
is absorbing. -/
def Value.lookup (v : Value) (path : String) : Option Value :=
  (splitDots path).foldl
    (fun curr p =>
      match curr with
      | none => none
      | some s =>
        lookup_elm s (match from_str_uint p with
                      | some idx => .Idx idx
                      | none => .Key p))
    (some v)

/-- `Value::get_int` (lib.rs:155-161).  `u.to_i64().unwrap()` panics when the
`u64` magnitude exceeds `i64::MAX`; the panic is the `.error ()` result. -/
def get_int : Value → Except Unit (Option Int)
  | .PosInt u => if u < 2 ^ 63 then .ok (some (u : Int)) else .error ()
  | .NegInt u => if u < 2 ^ 63 then .ok (some (-(u : Int))) else .error ()
  | _ => .ok none

/-! ## TreeBuilder (`ValueBuilder`, lib.rs:236-374) -/

/-- `vec.mut_last()` assignment target: replace the last element. -/
def setLast (l : List Value) (v : Value) : List Value := l.dropLast ++ [v]

/-- `ValueBuilder::recursive_create_tree` (lib.rs:246-323).
`none` models a panic: the `assert!(path.len() > 0)`, the
`assert!(table_array.len() > 0)`, the `unreachable!()` for a non-`Table`
inside a `TableArray`, and the final `assert!(ok)`.
`some (b, ht')` is the returned bool together with the (possibly) mutated map. -/
def recursive_create_tree : List String → Tbl → Bool → Option (Bool × Tbl)
  | [], _, _ => none
  | head :: tl, ht, is_array =>
    if head = "" then some (false, ht)
    else
      let term_rec := tl.isEmpty
      match tblFind head ht with
      | some (.TableArray table_array) =>
        if table_array.isEmpty then none
        else if term_rec then
          if is_array then
            some (true, tblUpdate head (.TableArray (table_array ++ [.Table true []])) ht)
          else some (false, ht)
        else
          match table_array.getLast? with
          | some (.Table b hmap) =>
            match recursive_create_tree tl hmap is_array with
            | none => none
            | some (ok, hmap') =>
              some (ok, tblUpdate head (.TableArray (setLast table_array (.Table b hmap'))) ht)
          | _ => none
      | some (.Table already_created table) =>
        if term_rec then
          if is_array then some (false, ht)
          else if already_created then some (false, ht)
          else some (true, ht)
        else
          match recursive_create_tree tl table is_array with
          | none => none
          | some (ok, table') =>
            some (ok, tblUpdate head (.Table already_created table') ht)
      | some _ => some (false, ht)
      | none =>
        if term_rec then
          let value : Value := if is_array then .TableArray [.Table false []] else .Table true []
          let r := tblInsert head value ht
          if r.1 then some (true, r.2) else none
        else
          match recursive_create_tree tl [] is_array with
          | none => none
          | some (ok, table) =>
            if !ok then some (false, ht)
            else
              let r := tblInsert head (.Table false table) ht
              if r.1 then some (true, r.2) else none

/-- `ValueBuilder::insert_value` (lib.rs:325-353).  `none` models the
`assert!(table_array.len() > 0)` and `unreachable!()` panics. -/
def insert_value : List String → String → Tbl → Value → Option (Bool × Tbl)
  | [], key, ht, val => some (tblInsert key val ht)
  | head :: tl, key, ht, val =>
    match tblFind head ht with
    | some (.Table b table) =>
      match insert_value tl key table val with
      | none => none
      | some (ok, table') => some (ok, tblUpdate head (.Table b table') ht)
    | some (.TableArray table_array) =>
      if table_array.isEmpty then none
      else
        match table_array.getLast? with
        | some (.Table b hmap) =>
          match insert_value tl key hmap val with
          | none => none
          | some (ok, hmap') =>
            some (ok, tblUpdate head (.TableArray (setLast table_array (.Table b hmap'))) ht)
        | _ => none
    | _ => some (false, ht)

/-! ## Decoder fragments (lib.rs:984-1017) -/

/-- The re-tagging done at the end of `Decoder::read_struct_field`
(lib.rs:1005-1009). -/
def dec_retag {α : Type _} (name : String) : Except Error α → Except Error α
  | .error .ParseError => .error (.ParseErrorInField name)
  | r => r

/-- `Decoder::read_struct` (lib.rs:984-991): the current value must be a
`Table`; its map becomes the working copy handed to the continuation. -/
def read_struct {α : Type _} (v : Value) (f : Tbl → Except Error α) : Except Error α :=
  match v with
  | .Table _ hm => f hm
  | _ => .error .ParseError

/-- `Decoder::read_struct_field` (lib.rs:993-1010): pop the field from the
working copy (decoding against `NoValue` when absent), then re-tag a
`ParseError` with the field name.  Returns the result and the updated
working copy. -/
def read_struct_field {α : Type _} (name : String) (tab : Tbl)
    (f : Value → Except Error α) : Except Error α × Tbl :=
  match tblPop name tab with
  | (none, tab') => (dec_retag name (f .NoValue), tab')
  | (some val, tab') => (dec_retag name (f val), tab')

/-- `Decoder::read_option` (lib.rs:1012-1017). -/
def read_option {α : Type _} (v : Value) (f : Value → Bool → Except Error α) :
    Except Error α :=
  match v with
  | .NoValue => f v false
  | _ => f v true

/-! ## Scanner and parser (lib.rs:376-877)

The parser state is the list of characters not yet consumed: `ch()` is its
head (`None` when empty), `advance` drops the head.  The wrap-around of
`u64` arithmetic in `read_digits` is kept (`% 2^64`). -/

/-- `char::to_digit(c, radix)` of the 2014 stdlib. -/
def char_to_digit (c : Char) (radix : Nat) : Option Nat :=
  let v : Option Nat :=
    if '0' ≤ c ∧ c ≤ '9' then some (c.toNat - '0'.toNat)
    else if 'a' ≤ c ∧ c ≤ 'z' then some (c.toNat - 'a'.toNat + 10)
    else if 'A' ≤ c ∧ c ≤ 'Z' then some (c.toNat - 'A'.toNat + 10)
    else none
  match v with
  | some d => if d < radix then some d else none
  | none => none

/-- `Parser::advance_if` (lib.rs:416-426): consume the head iff it is `c`. -/
def advance_if (c : Char) : List Char → Bool × List Char
  | [] => (false, [])
  | c' :: ls => if c' = c then (true, ls) else (false, c' :: ls)

/-- `Parser::read_digit` (lib.rs:428-437). -/
def read_digit (radix : Nat) : List Char → Option Nat × List Char
  | [] => (none, [])
  | c :: ls =>
    match char_to_digit c radix with
    | some n => (some n, ls)
    | none => (none, c :: ls)

/-- `Parser::read_two_digits` (lib.rs:439-446).  `d1*10+d2 ≤ 99` so the `u8`
arithmetic cannot wrap. -/
def read_two_digits (l : List Char) : Option Nat × List Char :=
  let r1 := read_digit 10 l
  let r2 := read_digit 10 r1.2
  match r1.1, r2.1 with
  | some d1, some d2 => (some (d1 * 10 + d2), r2.2)
  | _, _ => (none, r2.2)

/-- The loop of `Parser::read_digits` (lib.rs:455-466); the accumulator wraps
like `u64` (`// XXX: check range` in the source). -/
def read_digits_loop (num ndigits : Nat) : List Char → (Nat × Nat) × List Char
  | [] => ((num, ndigits), [])
  | c :: ls =>
    match char_to_digit c 10 with
    | some n => read_digits_loop ((num * 10 + n) % 2 ^ 64) (ndigits + 1) ls
    | none => ((num, ndigits), c :: ls)

/-- `Parser::read_digits` (lib.rs:448-467): `(value?, count)` of a decimal run. -/
def read_digits (l : List Char) : (Option Nat × Nat) × List Char :=
  match l with
  | [] => ((none, 0), [])
  | c :: ls =>
    match char_to_digit c 10 with
    | some n =>
      let r := read_digits_loop n 1 ls
      ((some r.1.1, r.1.2), r.2)
    | none => ((none, 0), c :: ls)

/-- The loop of `Parser::read_float_mantissa` (lib.rs:470-485), exact in `Rat`. -/
def read_float_mantissa_loop (num div : Rat) : List Char → Rat × List Char
  | [] => (num, [])
  | c :: ls =>
    match char_to_digit c 10 with
    | some n => read_float_mantissa_loop (num + (n : Rat) / div) (div * 10) ls
    | none => (num, c :: ls)

/-- `Parser::read_float_mantissa` (lib.rs:470-485). -/
def read_float_mantissa (l : List Char) : Rat × List Char :=
  read_float_mantissa_loop 0 10 l

/-- `Parser::parse_float_rest` (lib.rs:487-497): requires a digit after the
dot, then `Float((n + mantissa) * mul)`. -/
def parse_float_rest (n : Nat) (mul : Rat) : List Char → Value × List Char
  | [] => (.NoValue, [])
  | c :: ls =>
    if '0' ≤ c ∧ c ≤ '9' then
      let r := read_float_mantissa (c :: ls)
      (.Float (((n : Rat) + r.1) * mul), r.2)
    else (.NoValue, c :: ls)

/-- The loop of `Parser::parse_string` (lib.rs:658-709).  `acc` is the
decoded character accumulator; `none` results leave the state exactly where
the source's early `return None`s leave `current_char`.  The fuel argument
only bounds the recursion; every iteration consumes at least one input
character, so `length + 1` fuel (as supplied by `parse_string`) always
suffices and the fuel-exhausted case is unreachable. -/
def parse_string_loop : Nat → List Char → List Char → Option String × List Char
  | 0, _, l => (none, l)
  | fuel + 1, acc, l =>
    match l with
    | [] => (none, [])
    | c :: ls =>
    if c = '\r' ∨ c = '\n' ∨ c = '\u000C' ∨ c = '\u0008' then (none, c :: ls)
    else if c = '\\' then
      match ls with
      | [] => (none, [])
      | e :: ls2 =>
        if e = 'b' then parse_string_loop fuel (acc ++ ['\u0008']) ls2
        else if e = 't' then parse_string_loop fuel (acc ++ ['\t']) ls2
        else if e = 'n' then parse_string_loop fuel (acc ++ ['\n']) ls2
        else if e = 'f' then parse_string_loop fuel (acc ++ ['\u000C']) ls2
        else if e = 'r' then parse_string_loop fuel (acc ++ ['\r']) ls2
        else if e = '"' then parse_string_loop fuel (acc ++ ['"']) ls2
        else if e = '/' then parse_string_loop fuel (acc ++ ['/']) ls2
        else if e = '\\' then parse_string_loop fuel (acc ++ ['\\']) ls2
        else if e = 'u' then
          -- four hex digits; `read_digit` does not consume a non-digit, so a
          -- failure leaves the state after the valid hex prefix
          match ls2 with
          | [] => (none, [])
          | c1 :: ls3 =>
            match char_to_digit c1 16 with
            | none => (none, c1 :: ls3)
            | some d1 =>
              match ls3 with
              | [] => (none, [])
              | c2 :: ls4 =>
                match char_to_digit c2 16 with
                | none => (none, c2 :: ls4)
                | some d2 =>
                  match ls4 with
                  | [] => (none, [])
                  | c3 :: ls5 =>
                    match char_to_digit c3 16 with
                    | none => (none, c3 :: ls5)
                    | some d3 =>
                      match ls5 with
                      | [] => (none, [])
                      | c4 :: ls6 =>
                        match char_to_digit c4 16 with
                        | none => (none, c4 :: ls6)
                        | some d4 =>
                          let n := ((d1 * 16 + d2) * 16 + d3) * 16 + d4
                          if n.isValidChar then
                            parse_string_loop fuel (acc ++ [Char.ofNat n]) ls6
                          else (none, ls6)
        else (none, e :: ls2)
    else if c = '"' then (some (String.mk acc), ls)
    else parse_string_loop fuel (acc ++ [c]) ls

/-- `Parser::parse_string` (lib.rs:655-710): leading quote then the loop. -/
def parse_string (l : List Char) : Option String × List Char :=
  match advance_if '"' l with
  | (false, l') => (none, l')
  | (true, l') => parse_string_loop (l'.length + 1) [] l'

/-- `Parser::read_token` (lib.rs:712-726): longest prefix satisfying `f`. -/
def read_token (f : Char → Bool) (acc : List Char) : List Char → List Char × List Char
  | [] => (acc, [])
  | c :: ls => if f c then read_token f (acc ++ [c]) ls else (acc, c :: ls)

/-- `Parser::parse_section_identifier` (lib.rs:728-735). -/
def parse_section_identifier (l : List Char) : List Char × List Char :=
  read_token (fun ch => !(ch = '\t' ∨ ch = '\n' ∨ ch = '\r' ∨ ch = '[' ∨ ch = ']')) [] l

/-- `Parser::skip_whitespaces` (lib.rs:737-750). -/
def skip_whitespaces : List Char → List Char
  | [] => []
  | c :: ls =>
    if c = ' ' ∨ c = '\t' ∨ c = '\r' ∨ c = '\n' then skip_whitespaces ls else c :: ls

/-- `Parser::skip_whitespaces_and_comments` (lib.rs:752-768) with the inner
`skip_comment` loop (lib.rs:770-783) inlined as the `true` mode: in comment
mode characters are consumed up to and including the next newline, after
which whitespace-and-comment skipping resumes. -/
def skip_wc_aux : Bool → List Char → List Char
  | _, [] => []
  | false, c :: ls =>
    if c = ' ' ∨ c = '\t' ∨ c = '\r' ∨ c = '\n' then skip_wc_aux false ls
    else if c = '#' then skip_wc_aux true ls
    else c :: ls
  | true, c :: ls => if c = '\n' then skip_wc_aux false ls else skip_wc_aux true ls

def skip_whitespaces_and_comments (l : List Char) : List Char := skip_wc_aux false l

/-- The datetime continuation of `Parser::parse_value` (lib.rs:536-581),
entered after a 4-digit year and its `-` have been consumed.  The source's
short-circuiting `field.is_none() || !self.advance_if(sep)` is mirrored
branch by branch; the final range check keeps the loose bounds of the
source (`h ≤ 24`, `min ≤ 60`, `s ≤ 60`), and `year as u16` is `% 65536`. -/
def parse_datetime_rest (year : Nat) (l : List Char) : Value × List Char :=
  match read_two_digits l with
  | (none, l1) => (.NoValue, l1)
  | (some month, l1) =>
    match advance_if '-' l1 with
    | (false, l2) => (.NoValue, l2)
    | (true, l2) =>
      match read_two_digits l2 with
      | (none, l3) => (.NoValue, l3)
      | (some day, l3) =>
        match advance_if 'T' l3 with
        | (false, l4) => (.NoValue, l4)
        | (true, l4) =>
          match read_two_digits l4 with
          | (none, l5) => (.NoValue, l5)
          | (some hour, l5) =>
            match advance_if ':' l5 with
            | (false, l6) => (.NoValue, l6)
            | (true, l6) =>
              match read_two_digits l6 with
              | (none, l7) => (.NoValue, l7)
              | (some min, l7) =>
                match advance_if ':' l7 with
                | (false, l8) => (.NoValue, l8)
                | (true, l8) =>
                  match read_two_digits l8 with
                  | (none, l9) => (.NoValue, l9)
                  | (some sec, l9) =>
                    match advance_if 'Z' l9 with
                    | (false, l10) => (.NoValue, l10)
                    | (true, l10) =>
                      if 0 < month ∧ month ≤ 12 ∧ 0 < day ∧ day ≤ 31 ∧
                         hour ≤ 24 ∧ min ≤ 60 ∧ sec ≤ 60 then
                        (.Datetime (year % 65536) month day hour min sec, l10)
                      else (.NoValue, l10)

/-- The `'0' .. '9'` branch of `Parser::parse_value` (lib.rs:522-592): a digit
run, then a float continuation on `.`, a datetime continuation on `-` after
exactly 4 digits, and `PosInt` otherwise.  The `(None, _)` case is the
source's `assert!(false); return NoValue` (unreachable from `parse_value`). -/
def parse_value_digits (l : List Char) : Value × List Char :=
  match read_digits l with
  | ((none, _), l1) => (.NoValue, l1)
  | ((some n, ndigits), l1) =>
    match l1 with
    | '.' :: ls => parse_float_rest n 1 ls
    | '-' :: ls =>
      if ndigits ≠ 4 then (.NoValue, '-' :: ls)
      else parse_datetime_rest n ls
    | _ => (.PosInt n, l1)

/-- The `'-'` branch of `Parser::parse_value` (lib.rs:504-521), entered after
the sign has been consumed: a digit run, then a float continuation on `.`
and `NegInt` otherwise (no datetime attempt on the signed path). -/
def parse_value_neg (l : List Char) : Value × List Char :=
  match read_digits l with
  | ((none, _), l1) => (.NoValue, l1)
  | ((some n, _), l1) =>
    match l1 with
    | '.' :: ls => parse_float_rest n (-1) ls
    | _ => (.NegInt n, l1)

/-- The tail of the array branch (lib.rs:638-643): skip whitespace, require
`]`. -/
def finish_array (acc : List Value) (l : List Char) : Value × List Char :=
  let l1 := skip_whitespaces_and_comments l
  match advance_if ']' l1 with
  | (true, l2) => (.Array acc, l2)
  | (false, l2) => (.NoValue, l2)

mutual
/-- `Parser::parse_value` (lib.rs:499-653).  The fuel argument only bounds
the mutual recursion with the array-element loop; every recursive call in
the source consumes input, so `2 * length + 2` fuel (as supplied by the
top-level loop) always suffices. -/
def parse_value : Nat → List Char → Value × List Char
  | 0, l => (.NoValue, l)
  | fuel + 1, l =>
    match skip_whitespaces_and_comments l with
    | [] => (.NoValue, [])
    | c :: ls =>
      if c = '-' then parse_value_neg ls
      else if '0' ≤ c ∧ c ≤ '9' then parse_value_digits (c :: ls)
      else if c = 't' then
        -- `true` via advance_if chains (lib.rs:594-604)
        let r1 := advance_if 'r' ls
        if r1.1 then
          let r2 := advance_if 'u' r1.2
          if r2.1 then
            let r3 := advance_if 'e' r2.2
            if r3.1 then (.Boolean true, r3.2) else (.NoValue, r3.2)
          else (.NoValue, r2.2)
        else (.NoValue, r1.2)
      else if c = 'f' then
        -- `false` via advance_if chains (lib.rs:605-615)
        let r1 := advance_if 'a' ls
        if r1.1 then
          let r2 := advance_if 'l' r1.2
          if r2.1 then
            let r3 := advance_if 's' r2.2
            if r3.1 then
              let r4 := advance_if 'e' r3.2
              if r4.1 then (.Boolean false, r4.2) else (.NoValue, r4.2)
            else (.NoValue, r3.2)
          else (.NoValue, r2.2)
        else (.NoValue, r1.2)
      else if c = '[' then parse_array_loop fuel [] ls
      else if c = '"' then
        match parse_string (c :: ls) with
        | (some str, l') => (.Str str, l')
        | (none, l') => (.NoValue, l')
      else (.NoValue, c :: ls)

/-- The array-element loop of `Parser::parse_value` (lib.rs:616-644): parse
elements separated by `,`, checking type-equivalence of each element against
the first; a mismatch yields `NoValue` for the whole array. -/
def parse_array_loop : Nat → List Value → List Char → Value × List Char
  | 0, _, l => (.NoValue, l)
  | fuel + 1, acc, l =>
    match parse_value fuel l with
    | (.NoValue, l1) => finish_array acc l1
    | (val, l1) =>
      match acc with
      | [] =>
        let l2 := skip_whitespaces_and_comments l1
        match advance_if ',' l2 with
        | (true, l3) => parse_array_loop fuel [val] l3
        | (false, l3) => finish_array [val] l3
      | a :: _ =>
        if have_equiv_types a val then
          let l2 := skip_whitespaces_and_comments l1
          match advance_if ',' l2 with
          | (true, l3) => parse_array_loop fuel (acc ++ [val]) l3
          | (false, l3) => finish_array (acc ++ [val]) l3
        else (.NoValue, l1)
end

/-- Predicate for identifier characters (lib.rs:823-828). -/
def ident_char (ch : Char) : Bool :=
  !(ch = ' ' ∨ ch = '\t' ∨ ch = '\r' ∨ ch = '\n' ∨ ch = '=')

/-- The end-of-stream result of the top-level loop (lib.rs:789-791):
`to_err().map_or(Ok(()), |e| Err(IOError(e)))` — a clean EOF is `Ok`, a
genuine fault is `IOError`. -/
def eos_result (t : Term) (root : Tbl) : Option (Except Error Tbl) :=
  match t with
  | .eof => some (.ok root)
  | .ioerr e => some (.error (.IOError e))

/-- Outcome of one iteration of the top-level loop: either the loop halts
with a final result (`Err`, or a builder panic modelled as `none`), or it
continues with a new scanner/builder state. -/
inductive StepRes where
  | halt (r : Option (Except Error Tbl)) : StepRes
  | cont (l : List Char) (root : Tbl) (path : List String) : StepRes

/-- The `[` (section header) arm of `Parser::parse` (lib.rs:795-818),
entered after the `[` has been consumed, combined with the
`ValueBuilder::section` visitor callback (lib.rs:357-365): a second `[`
selects a table-array header, the identifier runs to `]`, empty names and
missing brackets abort, and the builder result decides between abort and
continuing with the new current path. -/
def section_after (double_section : Bool) (l1 : List Char)
    (root : Tbl) : StepRes :=
  let r2 := parse_section_identifier l1
  let section_name := r2.1
  if section_name = [] then .halt (some (.error .ParseError))
  else
    match advance_if ']' r2.2 with
    | (false, _) => .halt (some (.error .ParseError))
    | (true, l3) =>
      match (if double_section then advance_if ']' l3 else (true, l3)) with
      | (false, _) => .halt (some (.error .ParseError))
      | (true, l4) =>
        let new_path := splitDots (String.mk section_name)
        match recursive_create_tree new_path root double_section with
        | none => .halt none
        | some (false, _) => .halt (some (.error .ParseError))
        | some (true, root') => .cont l4 root' new_path

/-- Dispatch on the optional second `[` of a section header
(lib.rs:797-804). -/
def section_step (ls : List Char) (root : Tbl) : StepRes :=
  match ls with
  | '[' :: ls2 => section_after true ls2 root
  | _ => section_after false ls root

/-- The identifier (pair) arm of `Parser::parse` (lib.rs:820-840) combined
with the `ValueBuilder::pair` visitor callback (lib.rs:367-373): read the
identifier, require `=`, parse a value, and insert it at the current path;
`NoValue` or a failed insertion aborts. -/
def pair_step (c : Char) (ls : List Char) (root : Tbl)
    (path : List String) : StepRes :=
  let r := read_token ident_char [] (c :: ls)
  let ident := r.1
  let l1 := skip_whitespaces r.2
  match advance_if '=' l1 with
  | (false, _) => .halt (some (.error .ParseError))
  | (true, l2) =>
    match parse_value (2 * l2.length + 2) l2 with
    | (.NoValue, _) => .halt (some (.error .ParseError))
    | (val, l3) =>
      match insert_value path (String.mk ident) root val with
      | none => .halt none
      | some (false, _) => .halt (some (.error .ParseError))
      | some (true, root') => .cont l3 root' path

/-- `Parser::parse` (lib.rs:785-843) specialised to the `ValueBuilder`
visitor: `root` is the builder map, `path` its `current_path`.  `none`
models a builder panic; `some (.error e)` an aborted parse; `some (.ok
root)` success.  The fuel decreases once per loop iteration; `length + 1`
(as supplied by `parse_from_chars`) always suffices because every
iteration consumes input. -/
def parseLoop (t : Term) : Nat → List Char → Tbl → List String →
    Option (Except Error Tbl)
  | 0, _, _, _ => none
  | fuel + 1, l, root, path =>
    match skip_whitespaces_and_comments l with
    | [] => eos_result t root
    | c :: ls =>
      match (if c = '[' then section_step ls root
             else pair_step c ls root path) with
      | .halt r => r
      | .cont l' root' path' => parseLoop t fuel l' root' path'

/-- `parse_from_bytes`/`parse_from_buffer` (lib.rs:857-877) on a character
list with terminal condition `t`: run the parser over an empty root and wrap
the final map in `Table(false, ht)`. -/
def parse_from_chars (cs : List Char) (t : Term) : Option (Except Error Value) :=
  match parseLoop t (cs.length + 1) cs [] [] with
  | none => none
  | some (.error e) => some (.error e)
  | some (.ok root) => some (.ok (.Table false root))

/-! ## Literal renderings (for the round-trip properties) -/

/-- The decimal digit character of `d < 10`. -/
def digit_char (d : Nat) : Char := Char.ofNat (48 + d)

/-- Decimal rendering of a natural number, most significant digit first
(fueled so that it reduces; `natToChars_eq` below gives the usual equation). -/
def natToCharsAux : Nat → Nat → List Char
  | 0, _ => []
  | fuel + 1, n =>
    if n < 10 then [digit_char n]
    else natToCharsAux fuel (n / 10) ++ [digit_char (n % 10)]

def natToChars (n : Nat) : List Char := natToCharsAux (n + 1) n

/-- Two-digit zero-padded rendering (for `n ≤ 99`). -/
def pad2 (n : Nat) : List Char := [digit_char (n / 10), digit_char (n % 10)]

/-- Four-digit zero-padded rendering (for `n ≤ 9999`). -/
def pad4 (n : Nat) : List Char :=
  [digit_char (n / 1000), digit_char (n / 100 % 10), digit_char (n / 10 % 10),
   digit_char (n % 10)]

/-- The tail of a datetime literal after `YYYY-`: `MM-DDThh:mm:ssZ`. -/
def dt_rest_chars (mo d h mi s : Nat) : List Char :=
  pad2 mo ++ '-' :: pad2 d ++ 'T' :: pad2 h ++ ':' :: pad2 mi ++ ':' :: pad2 s ++ ['Z']

/-- A full datetime literal `YYYY-MM-DDThh:mm:ssZ`. -/
def dt_chars (y mo d h mi s : Nat) : List Char :=
  pad4 y ++ '-' :: dt_rest_chars mo d h mi s

/-- Escaped rendering of one string character: the named escapes of the
grammar for the characters that need (or may take) them, the character
itself otherwise. -/
def esc_char (c : Char) : List Char :=
  if c = '"' then ['\\', '"']
  else if c = '\\' then ['\\', '\\']
  else if c = '\u0008' then ['\\', 'b']
  else if c = '\t' then ['\\', 't']
  else if c = '\n' then ['\\', 'n']
  else if c = '\u000C' then ['\\', 'f']
  else if c = '\r' then ['\\', 'r']
  else [c]

/-- A quoted, escaped string literal for the character list `s`. -/
def render_string (s : List Char) : List Char :=
  '"' :: (s.flatMap esc_char ++ ['"'])

/-- The exact fractional value denoted by mantissa digits starting at
divisor `div` (`d₀/div + d₁/(10·div) + ...`). -/
def frac_val_from (div : Rat) : List Nat → Rat
  | [] => 0
  | d :: ds => (d : Rat) / div + frac_val_from (div * 10) ds

/-- The exact fractional value of mantissa digits (`d₀/10 + d₁/100 + ...`). -/
def frac_val (ds : List Nat) : Rat := frac_val_from 10 ds

/-- A whole test document `key = <literal>`. -/
def doc_chars (lit : List Char) : List Char := "key = ".data ++ lit

/-- The tree a successful one-pair document produces. -/
def doc_table (v : Value) : Value := .Table false [("key", v)]

/-! ## Well-formedness of builder trees (claim C8) -/

mutual
/-- Structural invariant of values in builder trees: every `TableArray` is a
non-empty list of `Table`s (recursively well-formed). -/
def wfV : Value → Bool
  | .TableArray ta => !ta.isEmpty && wfTA ta
  | .Array es => wfL es
  | .Table _ m => wfT m
  | _ => true

/-- All elements are `Table`s with well-formed maps. -/
def wfTA : List Value → Bool
  | [] => true
  | .Table _ m :: rest => wfT m && wfTA rest
  | _ :: _ => false

def wfL : List Value → Bool
  | [] => true
  | v :: rest => wfV v && wfL rest

def wfT : Tbl → Bool
  | [] => true
  | (_, v) :: rest => wfV v && wfT rest
end

/-- One structural event emitted by the `Parser` to its `Visitor`
(lib.rs:231-234). -/
inductive Ev where
  | sec (name : String) (is_array : Bool) : Ev
  | pair (key : String) (val : Value) : Ev

/-- Values a `pair` event can carry: anything `parse_value` can produce is
well-formed (it never constructs tables). -/
def evWf : Ev → Bool
  | .sec _ _ => true
  | .pair _ v => wfV v

/-- Run the `ValueBuilder` visitor over a list of events, starting from root
map `root` and current path `path`.  `none` models a panic inside the
builder; `some (false, ..)` is an event the builder rejected (the parse
would abort there); `some (true, ..)` carries the final state. -/
def run_builder : List Ev → Tbl → List String → Option (Bool × Tbl × List String)
  | [], root, path => some (true, root, path)
  | .sec name is_array :: evs, root, _ =>
    let new_path := splitDots name
    match recursive_create_tree new_path root is_array with
    | none => none
    | some (false, root') => some (false, root', new_path)
    | some (true, root') => run_builder evs root' new_path
  | .pair key val :: evs, root, path =>
    match insert_value path key root val with
    | none => none
    | some (false, root') => some (false, root', path)
    | some (true, root') => run_builder evs root' path

/-- Homogeneity of an array as the grammar enforces it: every element after
the first is type-equivalent to the first. -/
def homog (arr : List Value) : Prop :=
  ∀ hd tl, arr = hd :: tl → ∀ v ∈ tl, have_equiv_types hd v = true

/-- The loose datetime field bounds checked by the source (lib.rs:570-574). -/
def dt_bounds (mo d h mi s : Nat) : Prop :=
  0 < mo ∧ mo ≤ 12 ∧ 0 < d ∧ d ≤ 31 ∧ h ≤ 24 ∧ mi ≤ 60 ∧ s ≤ 60

/-- The `u64` value `read_digits` accumulates over a digit run (wrapping like
the source's unchecked `u64` arithmetic). -/
def decValMod (ds : List Char) : Nat :=
  ds.foldl (fun a c => (a * 10 + (c.toNat - 48)) % 2 ^ 64) 0

/-- The round-trip property for one literal: parsing `key = <lit>` under a
clean EOF yields exactly the one-pair table, and looking the key up returns
the parsed value. -/
def doc_ok (lit : List Char) (v : Value) : Prop :=
  parse_from_chars (doc_chars lit) .eof = some (.ok (doc_table v)) ∧
  (doc_table v).lookup "key" = some v

/-- The shapes a `parse_value` result can take: a scalar, a bounds-checked
datetime, a homogeneous array, or no value. -/
def pv_shape (v : Value) : Prop :=
  v = .NoValue ∨ (∃ b, v = .Boolean b) ∨ (∃ n, v = .PosInt n) ∨
  (∃ n, v = .NegInt n) ∨ (∃ q, v = .Float q) ∨ (∃ s, v = .Str s) ∨
  (∃ y mo d h mi s, v = .Datetime y mo d h mi s ∧ dt_bounds mo d h mi s) ∨
  (∃ arr, v = .Array arr ∧ homog arr)

/-! ## Helper lemmas: association-list operations -/

theorem tblFind_insert_self (k : String) (v : Value) (t : Tbl) :
    tblFind k (tblInsert k v t).2 = some v := by
  induction t with
  | nil => simp [tblInsert, tblFind]
  | cons kv rest ih =>
    obtain ⟨k', v'⟩ := kv
    by_cases h : k' = k <;> simp [tblInsert, tblFind, h, ih]

theorem tblInsert_of_none {k : String} {t : Tbl} (v : Value)
    (h : tblFind k t = none) : tblInsert k v t = (true, t ++ [(k, v)]) := by
  induction t with
  | nil => simp [tblInsert]
  | cons kv rest ih =>
    obtain ⟨k', v'⟩ := kv
    by_cases hk : k' = k
    · simp [tblFind, hk] at h
    · simp [tblFind, hk] at h
      simp [tblInsert, hk, ih h]

theorem tblInsert_fst_of_some {k : String} {t : Tbl} {w : Value} (v : Value)
    (h : tblFind k t = some w) : (tblInsert k v t).1 = false := by
  induction t with
  | nil => simp [tblFind] at h
  | cons kv rest ih =>
    obtain ⟨k', v'⟩ := kv
    by_cases hk : k' = k
    · simp [tblInsert, hk]
    · simp [tblFind, hk] at h
      simp [tblInsert, hk, ih h]

theorem tblFind_update_self {k : String} {t : Tbl} {w : Value} (v : Value)
    (h : tblFind k t = some w) : tblFind k (tblUpdate k v t) = some v := by
  induction t with
  | nil => simp [tblFind] at h
  | cons kv rest ih =>
    obtain ⟨k', v'⟩ := kv
    by_cases hk : k' = k
    · simp [tblUpdate, tblFind, hk]
    · simp [tblFind, hk] at h
      simp [tblUpdate, tblFind, hk, ih h]

theorem tblPop_fst (k : String) (t : Tbl) : (tblPop k t).1 = tblFind k t := by
  induction t with
  | nil => simp [tblPop, tblFind]
  | cons kv rest ih =>
    obtain ⟨k', v'⟩ := kv
    by_cases hk : k' = k <;> simp [tblPop, tblFind, hk, ih]

theorem tblPop_of_none {k : String} {t : Tbl} (h : tblFind k t = none) :
    tblPop k t = (none, t) := by
  induction t with
  | nil => simp [tblPop]
  | cons kv rest ih =>
    obtain ⟨k', v'⟩ := kv
    by_cases hk : k' = k
    · simp [tblFind, hk] at h
    · simp [tblFind, hk] at h
      simp [tblPop, hk, ih h]

theorem tblFind_eq_none_of_not_mem {k : String} {t : Tbl}
    (h : k ∉ t.map Prod.fst) : tblFind k t = none := by
  induction t with
  | nil => rfl
  | cons kv rest ih =>
    obtain ⟨k', v'⟩ := kv
    rw [List.map_cons, List.mem_cons] at h
    push_neg at h
    rw [tblFind, if_neg (fun hh => h.1 hh.symm)]
    exact ih h.2

theorem tblFind_pop_nodup {k : String} {t : Tbl}
    (h : (t.map Prod.fst).Nodup) : tblFind k (tblPop k t).2 = none := by
  induction t with
  | nil => rfl
  | cons kv rest ih =>
    obtain ⟨k', v'⟩ := kv
    rw [List.map_cons, List.nodup_cons] at h
    by_cases hk : k' = k
    · simp only [tblPop, if_pos hk]
      exact tblFind_eq_none_of_not_mem (hk ▸ h.1)
    · simp only [tblPop, if_neg hk]
      rw [tblFind, if_neg hk]
      exact ih h.2

/-! ## Helper lemmas: path splitting -/

theorem splitDotsAux_ne_nil (acc : List Char) (cs : List Char) :
    splitDotsAux acc cs ≠ [] := by
  induction cs generalizing acc with
  | nil => simp [splitDotsAux]
  | cons c ls ih =>
    by_cases h : c = '.' <;> simp [splitDotsAux, h, ih]

theorem splitDots_ne_nil (s : String) : splitDots s ≠ [] :=
  splitDotsAux_ne_nil [] s.data

theorem splitDotsAux_no_dot (acc : List Char) {cs : List Char}
    (h : ∀ c ∈ cs, c ≠ '.') : splitDotsAux acc cs = [String.mk (acc ++ cs)] := by
  induction cs generalizing acc with
  | nil => simp [splitDotsAux]
  | cons c ls ih =>
    have hc : c ≠ '.' := h c (by simp)
    rw [splitDotsAux, if_neg hc, ih (acc ++ [c]) (fun x hx => h x (by simp [hx]))]
    simp

theorem splitDots_single {s : String} (h : ∀ c ∈ s.data, c ≠ '.') :
    splitDots s = [s] := by
  rw [splitDots, splitDotsAux_no_dot [] h]
  rfl

/-! ## Claim C10 -/

/-- C10: `Value::get_int` returns `None` on values that are neither `PosInt`
nor `NegInt`; and whenever the stored magnitude `u` is at most `2^63 - 1` it
returns `Some(u)` for `PosInt(u)` and `Some(-u)` for `NegInt(u)`, without
reaching the `u64`-to-`i64` `unwrap` panic. -/
theorem C10_get_int :
    (∀ v : Value, (∀ u, v ≠ .PosInt u) → (∀ u, v ≠ .NegInt u) →
      get_int v = .ok none) ∧
    (∀ u : Nat, u ≤ 2 ^ 63 - 1 →
      get_int (.PosInt u) = .ok (some ((u : Nat) : Int)) ∧
      get_int (.NegInt u) = .ok (some (-((u : Nat) : Int)))) := by
  constructor
  · intro v h1 h2
    cases v with
    | PosInt u => exact absurd rfl (h1 u)
    | NegInt u => exact absurd rfl (h2 u)
    | NoValue => rfl
    | Boolean b => rfl
    | Float q => rfl
    | Str s => rfl
    | Datetime y mo d h mi s => rfl
    | Array es => rfl
    | TableArray es => rfl
    | Table b m => rfl
  · intro u hu
    have h : u < 2 ^ 63 := by omega
    constructor
    · rw [show get_int (.PosInt u) =
        (if u < 2 ^ 63 then .ok (some ((u : Nat) : Int)) else .error ()) from rfl,
        if_pos h]
    · rw [show get_int (.NegInt u) =
        (if u < 2 ^ 63 then .ok (some (-((u : Nat) : Int))) else .error ()) from rfl,
        if_pos h]

theorem C10_get_int_witness :
    get_int (.Boolean true) = .ok none ∧
    get_int (.PosInt 5) = .ok (some ((5 : Nat) : Int)) ∧
    get_int (.NegInt 5) = .ok (some (-((5 : Nat) : Int))) :=
  ⟨C10_get_int.1 (.Boolean true) (fun _ h => by cases h) (fun _ h => by cases h),
   (C10_get_int.2 5 (by decide)).1, (C10_get_int.2 5 (by decide)).2⟩

/-! ## Claim C6 -/

/-- C6: decoding a named struct field removes the field from the working
copy (each field read at most once), decodes a missing field against
`NoValue` (so `read_option` sees absence), and re-tags a `ParseError`
raised below it as `ParseErrorInField(name)` while passing every other
outcome through unchanged. -/
theorem C6_struct_field_decode :
    ∀ {α : Type} (name : String) (tab : Tbl) (f : Value → Except Error α),
      ((tab.map Prod.fst).Nodup →
        tblFind name (read_struct_field name tab f).2 = none) ∧
      (tblFind name tab = none →
        read_struct_field name tab f = (dec_retag name (f .NoValue), tab)) ∧
      (∀ val, tblFind name tab = some val →
        (read_struct_field name tab f).1 = dec_retag name (f val)) ∧
      (∀ v, f v = .error .ParseError →
        dec_retag name (f v) = .error (.ParseErrorInField name)) ∧
      (∀ v x, f v = .ok x → dec_retag name (f v) = .ok x) ∧
      (∀ v g, f v = .error (.ParseErrorInField g) →
        dec_retag name (f v) = .error (.ParseErrorInField g)) ∧
      (∀ v e, f v = .error (.IOError e) →
        dec_retag name (f v) = .error (.IOError e)) ∧
      (∀ (b : Bool) (hm : Tbl) (k : Tbl → Except Error α),
        read_struct (.Table b hm) k = k hm) ∧
      (∀ g : Value → Bool → Except Error α,
        read_option .NoValue g = g .NoValue false) := by
  intro α name tab f
  have hsnd : (read_struct_field name tab f).2 = (tblPop name tab).2 := by
    rw [read_struct_field]
    rcases h : tblPop name tab with ⟨r, tab'⟩
    cases r <;> rfl
  refine ⟨?_, ?_, ?_, ?_, ?_, ?_, ?_, fun b hm k => rfl, fun g => rfl⟩
  · intro hnodup
    rw [hsnd]
    exact tblFind_pop_nodup hnodup
  · intro hnone
    rw [read_struct_field, tblPop_of_none hnone]
  · intro val hval
    have h1 : (tblPop name tab).1 = some val := by rw [tblPop_fst]; exact hval
    rw [read_struct_field]
    rcases h : tblPop name tab with ⟨r, tab'⟩
    rw [h] at h1
    simp at h1
    subst h1
    rfl
  · intro v h
    rw [h]; rfl
  · intro v x h
    rw [h]; rfl
  · intro v g h
    rw [h]; rfl
  · intro v e h
    rw [h]; rfl

theorem C6_struct_field_decode_witness :
    tblFind "a" (read_struct_field "a" [("a", Value.PosInt 1)]
      (fun _ => (.ok 0 : Except Error Nat))).2 = none ∧
    read_struct_field "b" [("a", Value.PosInt 1)]
      (fun v => (match v with | .NoValue => .error .ParseError | _ => .ok 0 :
        Except Error Nat)) =
      (.error (.ParseErrorInField "b"), [("a", Value.PosInt 1)]) := by
  constructor
  · exact (C6_struct_field_decode "a" [("a", Value.PosInt 1)] _).1 (by decide)
  · have h := (C6_struct_field_decode "b" [("a", Value.PosInt 1)]
      (fun v => (match v with | .NoValue => .error .ParseError | _ => .ok 0 :
        Except Error Nat))).2.1 (by rfl)
    rw [h]
    rfl

/-! ## Claim C1 (corrected) -/

/-- C1 counterexample: after parsing `x = [1, 2, -3]`, `lookup("x.1")` does
NOT return the second array element — the `Idx` lookup (lib.rs:107-116)
matches only `TableArray`, so it returns `None` on an `Array`. -/
theorem C1_counterexample :
    parse_from_chars "x = [1, 2, -3]".data .eof =
      some (.ok (.Table false [("x", .Array [.PosInt 1, .PosInt 2, .NegInt 3])])) ∧
    (Value.Table false
      [("x", .Array [.PosInt 1, .PosInt 2, .NegInt 3])]).lookup "x.1" ≠
      some (.PosInt 2) ∧
    (Value.Table false
      [("x", .Array [.PosInt 1, .PosInt 2, .NegInt 3])]).lookup "x.1" = none := by
  refine ⟨rfl, ?_, rfl⟩
  intro h
  rw [show (Value.Table false
      [("x", .Array [.PosInt 1, .PosInt 2, .NegInt 3])]).lookup "x.1" = none
    from rfl] at h
  cases h

/-- C1 (amended): `Value::lookup` classifies each dotted-path segment — a
segment that parses as a non-negative integer is an index that resolves by
position against a `TableArray` only (an `Array` never matches an index
segment), any other segment is a key that resolves by name against a
`Table` — and lookup returns `None` on any type mismatch or out-of-range
index; in particular after parsing `x = [1, 2, -3]`, `lookup("x.1")`
returns `None`. -/
theorem C1_lookup_segments :
    (∀ (i : Nat) (ta : List Value),
      lookup_elm (.TableArray ta) (.Idx i) = ta.get? i) ∧
    (∀ (v : Value) (i : Nat), (∀ ta, v ≠ .TableArray ta) →
      lookup_elm v (.Idx i) = none) ∧
    (∀ (k : String) (b : Bool) (m : Tbl),
      lookup_elm (.Table b m) (.Key k) = tblFind k m) ∧
    (∀ (v : Value) (k : String), (∀ b m, v ≠ .Table b m) →
      lookup_elm v (.Key k) = none) ∧
    (∀ (v : Value) (seg : String), (∀ c ∈ seg.data, c ≠ '.') →
      v.lookup seg = lookup_elm v
        (match from_str_uint seg with
         | some idx => .Idx idx
         | none => .Key seg)) ∧
    (parse_from_chars "x = [1, 2, -3]".data .eof =
      some (.ok (.Table false [("x", .Array [.PosInt 1, .PosInt 2, .NegInt 3])]))) ∧
    ((Value.Table false
      [("x", .Array [.PosInt 1, .PosInt 2, .NegInt 3])]).lookup "x.1" = none) := by
  refine ⟨fun i ta => rfl, ?_, fun k b m => rfl, ?_, ?_, rfl, rfl⟩
  · intro v i h
    cases v with
    | TableArray ta => exact absurd rfl (h ta)
    | NoValue => rfl
    | Boolean b => rfl
    | PosInt n => rfl
    | NegInt n => rfl
    | Float q => rfl
    | Str s => rfl
    | Datetime y mo d hh mi s => rfl
    | Array es => rfl
    | Table b m => rfl
  · intro v k h
    cases v with
    | Table b m => exact absurd rfl (h b m)
    | NoValue => rfl
    | Boolean b => rfl
    | PosInt n => rfl
    | NegInt n => rfl
    | Float q => rfl
    | Str s => rfl
    | Datetime y mo d hh mi s => rfl
    | Array es => rfl
    | TableArray es => rfl
  · intro v seg h
    rw [Value.lookup, splitDots_single h]
    rfl

theorem C1_lookup_segments_witness :
    lookup_elm (.TableArray [.Table true []]) (.Idx 0) = some (.Table true []) ∧
    lookup_elm (.Array [.PosInt 1, .PosInt 2]) (.Idx 1) = none ∧
    lookup_elm (.Boolean true) (.Key "a") = none ∧
    (Value.Table false [("a", .PosInt 7)]).lookup "a" = some (.PosInt 7) := by
  refine ⟨(C1_lookup_segments.1 0 [.Table true []]).trans rfl,
    C1_lookup_segments.2.1 (.Array [.PosInt 1, .PosInt 2]) 1
      (fun ta h => by cases h),
    C1_lookup_segments.2.2.2.1 (.Boolean true) "a" (fun b m h => by cases h),
    ?_⟩
  have h := C1_lookup_segments.2.2.2.2.1 (Value.Table false [("a", .PosInt 7)])
    "a" (by decide)
  rw [h]
  rfl

/-! ## Claim C2 -/

/-- C2: a `[[name]]` header at an absent key creates a single-element
`TableArray`; at a (non-empty) `TableArray` it appends a fresh empty
`Table`; at a plain `Table` it fails.  A `[name]` header re-opening an
already-opened `Table` fails, and a non-array `[name]` at a `TableArray`
fails; each such failure aborts the whole parse with `ParseError`
(illustrated on the spec's table-array example). -/
theorem C2_section_semantics :
    (∀ (name : String) (ht : Tbl), name ≠ "" → tblFind name ht = none →
      ∃ ht', recursive_create_tree [name] ht true = some (true, ht') ∧
        tblFind name ht' = some (.TableArray [.Table false []])) ∧
    (∀ (name : String) (ht : Tbl) (ta : List Value), name ≠ "" →
      tblFind name ht = some (.TableArray ta) → ta ≠ [] →
      ∃ ht', recursive_create_tree [name] ht true = some (true, ht') ∧
        tblFind name ht' = some (.TableArray (ta ++ [.Table true []]))) ∧
    (∀ (name : String) (ht : Tbl) (b : Bool) (m : Tbl), name ≠ "" →
      tblFind name ht = some (.Table b m) →
      recursive_create_tree [name] ht true = some (false, ht)) ∧
    (∀ (name : String) (ht : Tbl) (m : Tbl), name ≠ "" →
      tblFind name ht = some (.Table true m) →
      recursive_create_tree [name] ht false = some (false, ht)) ∧
    (∀ (name : String) (ht : Tbl) (ta : List Value), name ≠ "" →
      tblFind name ht = some (.TableArray ta) → ta ≠ [] →
      recursive_create_tree [name] ht false = some (false, ht)) ∧
    (parse_from_chars "[[p]]\nid=1\n[[p]]\nid=2".data .eof =
      some (.ok (.Table false [("p", .TableArray
        [.Table false [("id", .PosInt 1)], .Table true [("id", .PosInt 2)]])]))) ∧
    ((Value.Table false [("p", .TableArray
        [.Table false [("id", .PosInt 1)], .Table true [("id", .PosInt 2)]])]).lookup
      "p.0.id" = some (.PosInt 1)) ∧
    ((Value.Table false [("p", .TableArray
        [.Table false [("id", .PosInt 1)], .Table true [("id", .PosInt 2)]])]).lookup
      "p.1.id" = some (.PosInt 2)) ∧
    (parse_from_chars "[[p]]\nid=1\n[[p]]\nid=2\n[p]".data .eof =
      some (.error .ParseError)) ∧
    (parse_from_chars "[p]\n[[p]]".data .eof = some (.error .ParseError)) ∧
    (parse_from_chars "[s]\n[s]".data .eof = some (.error .ParseError)) := by
  refine ⟨?_, ?_, ?_, ?_, ?_, rfl, rfl, rfl, rfl, rfl, rfl⟩
  · intro name ht hname hfind
    have hins := tblInsert_of_none (k := name) (t := ht)
      (.TableArray [.Table false []]) hfind
    refine ⟨(tblInsert name (.TableArray [.Table false []]) ht).2, ?_,
      tblFind_insert_self name _ ht⟩
    simp only [recursive_create_tree, if_neg hname, hfind, List.isEmpty_nil,
      hins]
    simp [hins]
  · intro name ht ta hname hfind hta
    have hempty : ta.isEmpty = false := by
      cases ta with
      | nil => exact absurd rfl hta
      | cons a l => rfl
    refine ⟨tblUpdate name (.TableArray (ta ++ [.Table true []])) ht, ?_,
      tblFind_update_self _ hfind⟩
    simp only [recursive_create_tree, if_neg hname, hfind, hempty,
      List.isEmpty_nil, Bool.false_eq_true, if_false, if_true]
  · intro name ht b m hname hfind
    simp only [recursive_create_tree, if_neg hname, hfind, List.isEmpty_nil,
      if_true]
  · intro name ht m hname hfind
    simp only [recursive_create_tree, if_neg hname, hfind, List.isEmpty_nil,
      if_true, Bool.false_eq_true, if_false]
  · intro name ht ta hname hfind hta
    have hempty : ta.isEmpty = false := by
      cases ta with
      | nil => exact absurd rfl hta
      | cons a l => rfl
    simp only [recursive_create_tree, if_neg hname, hfind, hempty,
      List.isEmpty_nil, Bool.false_eq_true, if_false, if_true]

theorem C2_section_semantics_witness :
    (∃ ht', recursive_create_tree ["n"] [] true = some (true, ht') ∧
      tblFind "n" ht' = some (.TableArray [.Table false []])) ∧
    (∃ ht', recursive_create_tree ["p"]
        [("p", .TableArray [.Table false []])] true = some (true, ht') ∧
      tblFind "p" ht' =
        some (.TableArray [.Table false [], .Table true []])) ∧
    recursive_create_tree ["p"] [("p", .Table true [])] true =
      some (false, [("p", .Table true [])]) ∧
    recursive_create_tree ["s"] [("s", .Table true [])] false =
      some (false, [("s", .Table true [])]) ∧
    recursive_create_tree ["p"] [("p", .TableArray [.Table false []])] false =
      some (false, [("p", .TableArray [.Table false []])]) :=
  ⟨C2_section_semantics.1 "n" [] (by decide) rfl,
   C2_section_semantics.2.1 "p" [("p", .TableArray [.Table false []])]
     [.Table false []] (by decide) rfl (by simp),
   C2_section_semantics.2.2.1 "p" [("p", .Table true [])] true [] (by decide) rfl,
   C2_section_semantics.2.2.2.1 "s" [("s", .Table true [])] [] (by decide) rfl,
   C2_section_semantics.2.2.2.2.1 "p" [("p", .TableArray [.Table false []])]
     [.Table false []] (by decide) rfl (by simp)⟩

/-! ## Claim C5 -/

/-- C5: a `pair(key, value)` event walks the current path from the root,
descending into the last element of every `TableArray` it meets, and
inserts `key → value` at the terminal table; an existing key there makes
the insertion fail, so `a = 1` followed by `a = 2` aborts the parse. -/
theorem C5_pair_insertion :
    (∀ (key : String) (ht : Tbl) (val : Value), tblFind key ht = none →
      ∃ ht', insert_value [] key ht val = some (true, ht') ∧
        tblFind key ht' = some val) ∧
    (∀ (key : String) (ht : Tbl) (val w : Value), tblFind key ht = some w →
      ∃ ht', insert_value [] key ht val = some (false, ht')) ∧
    (∀ (head : String) (tl : List String) (key : String) (ht : Tbl)
        (val : Value) (b : Bool) (m : Tbl), tblFind head ht = some (.Table b m) →
      insert_value (head :: tl) key ht val =
        (match insert_value tl key m val with
         | none => none
         | some r => some (r.1, tblUpdate head (.Table b r.2) ht))) ∧
    (∀ (head : String) (tl : List String) (key : String) (ht : Tbl)
        (val : Value) (ta : List Value) (b : Bool) (m : Tbl),
      tblFind head ht = some (.TableArray ta) →
      ta.getLast? = some (.Table b m) →
      insert_value (head :: tl) key ht val =
        (match insert_value tl key m val with
         | none => none
         | some r =>
           some (r.1, tblUpdate head
             (.TableArray (setLast ta (.Table b r.2))) ht))) ∧
    (parse_from_chars "a = 1\na = 2".data .eof = some (.error .ParseError)) ∧
    (parse_from_chars "[s]\n[s]".data .eof = some (.error .ParseError)) ∧
    (parse_from_chars "a = 1".data .eof =
      some (.ok (.Table false [("a", .PosInt 1)]))) := by
  refine ⟨?_, ?_, ?_, ?_, rfl, rfl, rfl⟩
  · intro key ht val hfind
    refine ⟨(tblInsert key val ht).2, ?_, tblFind_insert_self key val ht⟩
    rw [insert_value, tblInsert_of_none val hfind]
  · intro key ht val w hfind
    refine ⟨(tblInsert key val ht).2, ?_⟩
    rw [insert_value]
    have hfst := tblInsert_fst_of_some (t := ht) val hfind
    rw [show tblInsert key val ht =
      ((tblInsert key val ht).1, (tblInsert key val ht).2) from rfl, hfst]
  · intro head tl key ht val b m hfind
    simp only [insert_value, hfind]
    cases hrec : insert_value tl key m val with
    | none => rfl
    | some r => rfl
  · intro head tl key ht val ta b m hfind hlast
    have hempty : ta.isEmpty = false := by
      cases ta with
      | nil => cases hlast
      | cons a l => rfl
    simp only [insert_value, hfind, hempty, Bool.false_eq_true, if_false,
      hlast]
    cases hrec : insert_value tl key m val with
    | none => rfl
    | some r => rfl

theorem C5_pair_insertion_witness :
    (∃ ht', insert_value [] "a" [] (.PosInt 1) = some (true, ht') ∧
      tblFind "a" ht' = some (.PosInt 1)) ∧
    (∃ ht', insert_value [] "a" [("a", Value.PosInt 1)] (.PosInt 2) =
      some (false, ht')) ∧
    insert_value ["s"] "k" [("s", .Table true [])] (.PosInt 1) =
      some (true, [("s", .Table true [("k", .PosInt 1)])]) ∧
    insert_value ["p"] "k"
        [("p", .TableArray [.Table false [], .Table true []])] (.PosInt 1) =
      some (true, [("p", .TableArray
        [.Table false [], .Table true [("k", .PosInt 1)]])]) := by
  refine ⟨C5_pair_insertion.1 "a" [] (.PosInt 1) rfl,
    C5_pair_insertion.2.1 "a" [("a", Value.PosInt 1)] (.PosInt 2)
      (.PosInt 1) rfl, ?_, ?_⟩
  · rw [C5_pair_insertion.2.2.1 "s" [] "k" [("s", .Table true [])]
      (.PosInt 1) true [] rfl]
    rfl
  · rw [C5_pair_insertion.2.2.2.1 "p" [] "k"
      [("p", .TableArray [.Table false [], .Table true []])] (.PosInt 1)
      [.Table false [], .Table true []] true [] rfl (by rfl)]
    rfl

/-! ## Helper lemmas: well-formedness (claim C8) -/

theorem wfT_find {ht : Tbl} {k : String} {v : Value} (hwf : wfT ht = true)
    (hfind : tblFind k ht = some v) : wfV v = true := by
  induction ht with
  | nil => cases hfind
  | cons kv rest ih =>
    obtain ⟨k', v'⟩ := kv
    rw [wfT, Bool.and_eq_true] at hwf
    rw [tblFind] at hfind
    by_cases hk : k' = k
    · rw [if_pos hk] at hfind
      cases hfind
      exact hwf.1
    · rw [if_neg hk] at hfind
      exact ih hwf.2 hfind

theorem wfT_update {ht : Tbl} {v : Value} (k : String) (hwf : wfT ht = true)
    (hv : wfV v = true) : wfT (tblUpdate k v ht) = true := by
  induction ht with
  | nil => rfl
  | cons kv rest ih =>
    obtain ⟨k', v'⟩ := kv
    rw [wfT, Bool.and_eq_true] at hwf
    rw [tblUpdate]
    by_cases hk : k' = k
    · rw [if_pos hk, wfT, Bool.and_eq_true]
      exact ⟨hv, hwf.2⟩
    · rw [if_neg hk, wfT, Bool.and_eq_true]
      exact ⟨hwf.1, ih hwf.2⟩

theorem wfT_insert {ht : Tbl} {v : Value} (k : String) (hwf : wfT ht = true)
    (hv : wfV v = true) : wfT (tblInsert k v ht).2 = true := by
  induction ht with
  | nil =>
    rw [show (tblInsert k v []).2 = [(k, v)] from rfl, wfT, Bool.and_eq_true]
    exact ⟨hv, rfl⟩
  | cons kv rest ih =>
    obtain ⟨k', v'⟩ := kv
    rw [wfT, Bool.and_eq_true] at hwf
    by_cases hk : k' = k
    · simp only [tblInsert, if_pos hk]
      rw [wfT, Bool.and_eq_true]
      exact ⟨hv, hwf.2⟩
    · simp only [tblInsert, if_neg hk]
      rw [wfT, Bool.and_eq_true]
      exact ⟨hwf.1, ih hwf.2⟩

theorem wfTA_getLast {ta : List Value} (hwf : wfTA ta = true) (hne : ta ≠ []) :
    ∃ b m, ta.getLast? = some (.Table b m) ∧ wfT m = true := by
  induction ta with
  | nil => exact absurd rfl hne
  | cons a l ih =>
    cases a with
    | Table b m =>
      cases l with
      | nil =>
        rw [wfTA, Bool.and_eq_true] at hwf
        exact ⟨b, m, rfl, hwf.1⟩
      | cons a2 l2 =>
        rw [wfTA, Bool.and_eq_true] at hwf
        obtain ⟨b', m', hl, hm⟩ := ih hwf.2 (by simp)
        exact ⟨b', m', by rw [List.getLast?_cons_cons]; exact hl, hm⟩
    | NoValue => exact Bool.noConfusion hwf
    | Boolean x => exact Bool.noConfusion hwf
    | PosInt x => exact Bool.noConfusion hwf
    | NegInt x => exact Bool.noConfusion hwf
    | Float x => exact Bool.noConfusion hwf
    | Str x => exact Bool.noConfusion hwf
    | Datetime x1 x2 x3 x4 x5 x6 => exact Bool.noConfusion hwf
    | Array x => exact Bool.noConfusion hwf
    | TableArray x => exact Bool.noConfusion hwf

theorem wfTA_append_table {ta : List Value} {m : Tbl} (b : Bool)
    (hwf : wfTA ta = true) (hm : wfT m = true) :
    wfTA (ta ++ [.Table b m]) = true := by
  induction ta with
  | nil =>
    rw [List.nil_append, wfTA, Bool.and_eq_true]
    exact ⟨hm, rfl⟩
  | cons a l ih =>
    cases a with
    | Table b' m' =>
      rw [wfTA, Bool.and_eq_true] at hwf
      rw [List.cons_append, wfTA, Bool.and_eq_true]
      exact ⟨hwf.1, ih hwf.2⟩
    | NoValue => exact Bool.noConfusion hwf
    | Boolean x => exact Bool.noConfusion hwf
    | PosInt x => exact Bool.noConfusion hwf
    | NegInt x => exact Bool.noConfusion hwf
    | Float x => exact Bool.noConfusion hwf
    | Str x => exact Bool.noConfusion hwf
    | Datetime x1 x2 x3 x4 x5 x6 => exact Bool.noConfusion hwf
    | Array x => exact Bool.noConfusion hwf
    | TableArray x => exact Bool.noConfusion hwf

theorem wfTA_dropLast {ta : List Value} (hwf : wfTA ta = true) :
    wfTA ta.dropLast = true := by
  induction ta with
  | nil => rfl
  | cons a l ih =>
    cases l with
    | nil => rfl
    | cons a2 l2 =>
      cases a with
      | Table b m =>
        rw [wfTA, Bool.and_eq_true] at hwf
        rw [List.dropLast_cons_of_ne_nil (by simp), wfTA, Bool.and_eq_true]
        exact ⟨hwf.1, ih hwf.2⟩
      | NoValue => exact Bool.noConfusion hwf
      | Boolean x => exact Bool.noConfusion hwf
      | PosInt x => exact Bool.noConfusion hwf
      | NegInt x => exact Bool.noConfusion hwf
      | Float x => exact Bool.noConfusion hwf
      | Str x => exact Bool.noConfusion hwf
      | Datetime x1 x2 x3 x4 x5 x6 => exact Bool.noConfusion hwf
      | Array x => exact Bool.noConfusion hwf
      | TableArray x => exact Bool.noConfusion hwf

theorem wfTA_setLast {ta : List Value} {m : Tbl} (b : Bool)
    (hwf : wfTA ta = true) (hm : wfT m = true) :
    wfTA (setLast ta (.Table b m)) = true :=
  wfTA_append_table b (wfTA_dropLast hwf) hm

theorem wfV_tablearray {ta : List Value} (hne : ta.isEmpty = false)
    (hwf : wfTA ta = true) : wfV (.TableArray ta) = true := by
  rw [wfV, hne, Bool.and_eq_true]
  exact ⟨rfl, hwf⟩

theorem isEmpty_append_singleton (l : List Value) (v : Value) :
    (l ++ [v]).isEmpty = false := by
  cases l <;> rfl

/-- `recursive_create_tree` never panics on a well-formed map and a
non-empty path, and preserves well-formedness. -/
theorem rct_wf : ∀ (path : List String) (ht : Tbl) (is_array : Bool),
    wfT ht = true → path ≠ [] →
    ∃ r, recursive_create_tree path ht is_array = some r ∧ wfT r.2 = true := by
  intro path
  induction path with
  | nil => exact fun ht is_array _ h => absurd rfl h
  | cons head tl ih =>
    intro ht is_array hwf _
    by_cases hhead : head = ""
    · exact ⟨(false, ht), by simp only [recursive_create_tree, if_pos hhead], hwf⟩
    · have hterm : tl = [] ∨ tl.isEmpty = false := by
        cases tl with
        | nil => exact Or.inl rfl
        | cons a b => exact Or.inr rfl
      cases hfind : tblFind head ht with
      | none =>
        rcases hterm with htl | htl
        · subst htl
          have hins := tblInsert_of_none (k := head) (t := ht)
            (if is_array then Value.TableArray [.Table false []]
             else .Table true []) hfind
          refine ⟨(true, (tblInsert head
            (if is_array then Value.TableArray [.Table false []]
             else .Table true []) ht).2), ?_, ?_⟩
          · simp only [recursive_create_tree, if_neg hhead, hfind,
              List.isEmpty_nil, if_true, hins]
          · refine wfT_insert head hwf ?_
            cases is_array
            · rfl
            · rfl
        · have htlne : tl ≠ [] := by
            intro h; rw [h] at htl; cases htl
          obtain ⟨r2, hr2, hwf2⟩ := ih [] is_array rfl htlne
          obtain ⟨ok2, m2⟩ := r2
          cases ok2 with
          | false =>
            refine ⟨(false, ht), ?_, hwf⟩
            simp only [recursive_create_tree, if_neg hhead, hfind, htl, hr2]
            rfl
          | true =>
            have hins := tblInsert_of_none (k := head) (t := ht)
              (.Table false m2) hfind
            refine ⟨(true, (tblInsert head (.Table false m2) ht).2), ?_, ?_⟩
            · simp only [recursive_create_tree, if_neg hhead, hfind, htl,
                hr2, hins]
              rfl
            · exact wfT_insert head hwf (by rw [wfV]; exact hwf2)
      | some v =>
        have hv := wfT_find hwf hfind
        cases v with
        | TableArray ta =>
          rw [wfV, Bool.and_eq_true] at hv
          have hne : ta.isEmpty = false := by
            cases h : ta.isEmpty
            · rfl
            · rw [h] at hv; cases hv.1
          have hta : ta ≠ [] := by
            intro h; rw [h] at hne; cases hne
          rcases hterm with htl | htl
          · subst htl
            cases is_array with
            | true =>
              refine ⟨(true, tblUpdate head
                (.TableArray (ta ++ [.Table true []])) ht), ?_, ?_⟩
              · simp only [recursive_create_tree, if_neg hhead, hfind, hne,
                  List.isEmpty_nil]
                rfl
              · refine wfT_update head hwf ?_
                exact wfV_tablearray (isEmpty_append_singleton ta _)
                  (wfTA_append_table true hv.2 rfl)
            | false =>
              refine ⟨(false, ht), ?_, hwf⟩
              simp only [recursive_create_tree, if_neg hhead, hfind, hne,
                List.isEmpty_nil]
              rfl
          · have htlne : tl ≠ [] := by
              intro h; rw [h] at htl; cases htl
            obtain ⟨b, m, hlast, hm⟩ := wfTA_getLast hv.2 hta
            obtain ⟨r2, hr2, hwf2⟩ := ih m is_array hm htlne
            obtain ⟨ok2, m2⟩ := r2
            refine ⟨(ok2, tblUpdate head
              (.TableArray (setLast ta (.Table b m2))) ht), ?_, ?_⟩
            · simp only [recursive_create_tree, if_neg hhead, hfind, hne,
                htl, hlast, hr2]
              rfl
            · refine wfT_update head hwf ?_
              refine wfV_tablearray ?_ (wfTA_setLast b hv.2 hwf2)
              rw [setLast]
              exact isEmpty_append_singleton _ _
        | Table b m =>
          rw [wfV] at hv
          rcases hterm with htl | htl
          · subst htl
            cases is_array with
            | true =>
              refine ⟨(false, ht), ?_, hwf⟩
              simp only [recursive_create_tree, if_neg hhead, hfind,
                List.isEmpty_nil]
              rfl
            | false =>
              cases b with
              | true =>
                refine ⟨(false, ht), ?_, hwf⟩
                simp only [recursive_create_tree, if_neg hhead, hfind,
                  List.isEmpty_nil]
                rfl
              | false =>
                refine ⟨(true, ht), ?_, hwf⟩
                simp only [recursive_create_tree, if_neg hhead, hfind,
                  List.isEmpty_nil]
                rfl
          · have htlne : tl ≠ [] := by
              intro h; rw [h] at htl; cases htl
            obtain ⟨r2, hr2, hwf2⟩ := ih m is_array hv htlne
            obtain ⟨ok2, m2⟩ := r2
            refine ⟨(ok2, tblUpdate head (.Table b m2) ht), ?_,
              wfT_update head hwf (by rw [wfV]; exact hwf2)⟩
            simp only [recursive_create_tree, if_neg hhead, hfind, htl, hr2]
            rfl
        | NoValue =>
          exact ⟨(false, ht), by simp only [recursive_create_tree,
            if_neg hhead, hfind], hwf⟩
        | Boolean x =>
          exact ⟨(false, ht), by simp only [recursive_create_tree,
            if_neg hhead, hfind], hwf⟩
        | PosInt x =>
          exact ⟨(false, ht), by simp only [recursive_create_tree,
            if_neg hhead, hfind], hwf⟩
        | NegInt x =>
          exact ⟨(false, ht), by simp only [recursive_create_tree,
            if_neg hhead, hfind], hwf⟩
        | Float x =>
          exact ⟨(false, ht), by simp only [recursive_create_tree,
            if_neg hhead, hfind], hwf⟩
        | Str x =>
          exact ⟨(false, ht), by simp only [recursive_create_tree,
            if_neg hhead, hfind], hwf⟩
        | Datetime x1 x2 x3 x4 x5 x6 =>
          exact ⟨(false, ht), by simp only [recursive_create_tree,
            if_neg hhead, hfind], hwf⟩
        | Array x =>
          exact ⟨(false, ht), by simp only [recursive_create_tree,
            if_neg hhead, hfind], hwf⟩

/-- `insert_value` never panics on a well-formed map and a well-formed
value, and preserves well-formedness. -/
theorem iv_wf : ∀ (path : List String) (key : String) (ht : Tbl) (val : Value),
    wfT ht = true → wfV val = true →
    ∃ r, insert_value path key ht val = some r ∧ wfT r.2 = true := by
  intro path
  induction path with
  | nil =>
    intro key ht val hwf hval
    refine ⟨tblInsert key val ht, rfl, ?_⟩
    exact wfT_insert key hwf hval
  | cons head tl ih =>
    intro key ht val hwf hval
    cases hfind : tblFind head ht with
    | none =>
      exact ⟨(false, ht), by simp only [insert_value, hfind], hwf⟩
    | some v =>
      have hv := wfT_find hwf hfind
      cases v with
      | Table b m =>
        rw [wfV] at hv
        obtain ⟨r2, hr2, hwf2⟩ := ih key m val hv hval
        obtain ⟨ok2, m2⟩ := r2
        refine ⟨(ok2, tblUpdate head (.Table b m2) ht), ?_,
          wfT_update head hwf (by rw [wfV]; exact hwf2)⟩
        simp only [insert_value, hfind, hr2]
      | TableArray ta =>
        rw [wfV, Bool.and_eq_true] at hv
        have hne : ta.isEmpty = false := by
          cases h : ta.isEmpty
          · rfl
          · rw [h] at hv; cases hv.1
        have hta : ta ≠ [] := by
          intro h; rw [h] at hne; cases hne
        obtain ⟨b, m, hlast, hm⟩ := wfTA_getLast hv.2 hta
        obtain ⟨r2, hr2, hwf2⟩ := ih key m val hm hval
        obtain ⟨ok2, m2⟩ := r2
        refine ⟨(ok2, tblUpdate head
          (.TableArray (setLast ta (.Table b m2))) ht), ?_, ?_⟩
        · simp only [insert_value, hfind, hne, Bool.false_eq_true, if_false,
            hlast, hr2]
        · refine wfT_update head hwf ?_
          refine wfV_tablearray ?_ (wfTA_setLast b hv.2 hwf2)
          rw [setLast]
          exact isEmpty_append_singleton _ _
      | NoValue =>
        exact ⟨(false, ht), by simp only [insert_value, hfind], hwf⟩
      | Boolean x =>
        exact ⟨(false, ht), by simp only [insert_value, hfind], hwf⟩
      | PosInt x =>
        exact ⟨(false, ht), by simp only [insert_value, hfind], hwf⟩
      | NegInt x =>
        exact ⟨(false, ht), by simp only [insert_value, hfind], hwf⟩
      | Float x =>
        exact ⟨(false, ht), by simp only [insert_value, hfind], hwf⟩
      | Str x =>
        exact ⟨(false, ht), by simp only [insert_value, hfind], hwf⟩
      | Datetime x1 x2 x3 x4 x5 x6 =>
        exact ⟨(false, ht), by simp only [insert_value, hfind], hwf⟩
      | Array x =>
        exact ⟨(false, ht), by simp only [insert_value, hfind], hwf⟩

/-! ## Claim C8 -/

/-- C8: starting from any well-formed root (in particular the empty root),
running any sequence of section/pair events through the builder keeps every
`TableArray` a non-empty all-`Table` sequence, and never reaches the
builder's panic branches (the `unreachable!()` for a non-`Table` element of
a `TableArray` and the `assert!` for an empty `TableArray`), i.e. the run
never returns `none`. -/
theorem C8_builder_invariant :
    ∀ (evs : List Ev) (root : Tbl) (path : List String),
      wfT root = true → evs.all evWf = true →
      run_builder evs root path ≠ none ∧
      (∀ ok root' path', run_builder evs root path = some (ok, root', path') →
        wfT root' = true) := by
  intro evs
  induction evs with
  | nil =>
    intro root path hwf _
    refine ⟨?_, ?_⟩
    · rw [run_builder]
      exact fun h => by cases h
    · intro ok root' path' h
      rw [run_builder] at h
      cases h
      exact hwf
  | cons ev rest ih =>
    intro root path hwf hall
    rw [List.all_cons, Bool.and_eq_true] at hall
    cases ev with
    | sec name is_array =>
      obtain ⟨⟨ok, root1⟩, hr, hwf1⟩ :=
        rct_wf (splitDots name) root is_array hwf (splitDots_ne_nil name)
      cases ok with
      | false =>
        refine ⟨?_, ?_⟩
        · rw [run_builder, hr]
          exact fun h => by cases h
        · intro ok' root' path' h
          rw [run_builder, hr] at h
          cases h
          exact hwf1
      | true =>
        have := ih root1 (splitDots name) hwf1 hall.2
        refine ⟨?_, ?_⟩
        · rw [run_builder, hr]
          exact this.1
        · intro ok' root' path' h
          rw [run_builder, hr] at h
          exact this.2 ok' root' path' h
    | pair key val =>
      have hval : wfV val = true := hall.1
      obtain ⟨⟨ok, root1⟩, hr, hwf1⟩ := iv_wf path key root val hwf hval
      cases ok with
      | false =>
        refine ⟨?_, ?_⟩
        · rw [run_builder, hr]
          exact fun h => by cases h
        · intro ok' root' path' h
          rw [run_builder, hr] at h
          cases h
          exact hwf1
      | true =>
        have := ih root1 path hwf1 hall.2
        refine ⟨?_, ?_⟩
        · rw [run_builder, hr]
          exact this.1
        · intro ok' root' path' h
          rw [run_builder, hr] at h
          exact this.2 ok' root' path' h

theorem C8_builder_invariant_witness :
    run_builder [.sec "p" true, .pair "id" (.PosInt 1), .sec "p" true]
      [] [] ≠ none ∧
    wfT [("p", Value.TableArray
      [.Table false [("id", .PosInt 1)], .Table true []])] = true := by
  have h := C8_builder_invariant
    [.sec "p" true, .pair "id" (.PosInt 1), .sec "p" true] [] [] rfl rfl
  refine ⟨h.1, ?_⟩
  exact h.2 true [("p", Value.TableArray
    [.Table false [("id", .PosInt 1)], .Table true []])] ["p"] rfl

/-! ## Helper lemmas: characters and digits -/

theorem char_dec_toNat {c : Char} (h1 : '0' ≤ c) (h2 : c ≤ '9') :
    48 ≤ c.toNat ∧ c.toNat ≤ 57 :=
  ⟨by simpa only [Char.le_def, UInt32.le_def, BitVec.le_def] using h1,
   by simpa only [Char.le_def, UInt32.le_def, BitVec.le_def] using h2⟩

theorem char_to_digit_dec {c : Char} (h1 : '0' ≤ c) (h2 : c ≤ '9') :
    char_to_digit c 10 = some (c.toNat - 48) := by
  obtain ⟨ha, hb⟩ := char_dec_toNat h1 h2
  rw [char_to_digit]
  simp only [h1, h2, and_self, if_true,
    show ('0'.toNat : Nat) = 48 from rfl]
  rw [if_pos (by omega)]

theorem char_to_digit10_some {c : Char} {d : Nat}
    (h : char_to_digit c 10 = some d) :
    c = digit_char d ∧ d < 10 ∧ '0' ≤ c ∧ c ≤ '9' := by
  rw [char_to_digit] at h
  simp only [show ('0'.toNat : Nat) = 48 from rfl,
    show ('a'.toNat : Nat) = 97 from rfl,
    show ('A'.toNat : Nat) = 65 from rfl] at h
  by_cases h09 : '0' ≤ c ∧ c ≤ '9'
  · rw [if_pos h09] at h
    simp only [] at h
    split at h
    · obtain ⟨ha, hb⟩ := char_dec_toNat h09.1 h09.2
      cases h
      refine ⟨?_, by omega, h09.1, h09.2⟩
      have hc : c.toNat = 48 + (c.toNat - 48) := by omega
      rw [digit_char, ← hc]
      exact (Char.ofNat_toNat c).symm
    · cases h
  · rw [if_neg h09] at h
    by_cases haz : 'a' ≤ c ∧ c ≤ 'z'
    · rw [if_pos haz] at h
      have : 97 ≤ c.toNat := by
        simpa only [Char.le_def, UInt32.le_def, BitVec.le_def] using haz.1
      simp only [] at h
      split at h
      · cases h
        omega
      · cases h
    · rw [if_neg haz] at h
      by_cases hAZ : 'A' ≤ c ∧ c ≤ 'Z'
      · rw [if_pos hAZ] at h
        have : 65 ≤ c.toNat := by
          simpa only [Char.le_def, UInt32.le_def, BitVec.le_def] using hAZ.1
        simp only [] at h
        split at h
        · cases h
          omega
        · cases h
      · rw [if_neg hAZ] at h
        cases h

theorem digit_char_dec {d : Nat} (h : d < 10) :
    '0' ≤ digit_char d ∧ digit_char d ≤ '9' ∧ (digit_char d).toNat - 48 = d ∧
      (digit_char d).toNat = 48 + d := by
  interval_cases d <;> exact ⟨by decide, by decide, by decide, by decide⟩

theorem char_to_digit_digit_char {d : Nat} (h : d < 10) :
    char_to_digit (digit_char d) 10 = some d := by
  obtain ⟨h1, h2, h3, _⟩ := digit_char_dec h
  rw [char_to_digit_dec h1 h2, h3]

/-! ## Helper lemmas: scanner-primitive inversions and runs -/

theorem advance_if_true {c : Char} {l l' : List Char}
    (h : advance_if c l = (true, l')) : l = c :: l' := by
  cases l with
  | nil => cases h
  | cons c' ls =>
    rw [advance_if] at h
    split at h
    · cases h
      subst_vars
      rfl
    · cases h

theorem advance_if_cons {c : Char} {l : List Char} :
    advance_if c (c :: l) = (true, l) := by
  rw [advance_if, if_pos rfl]

theorem read_digit_some {r : Nat} {l l' : List Char} {d : Nat}
    (h : read_digit r l = (some d, l')) :
    ∃ c, l = c :: l' ∧ char_to_digit c r = some d := by
  cases l with
  | nil => cases h
  | cons c ls =>
    rw [read_digit] at h
    cases hc : char_to_digit c r with
    | some n =>
      rw [hc] at h
      cases h
      exact ⟨c, rfl, hc⟩
    | none =>
      rw [hc] at h
      cases h

theorem read_digit_cons_of_digit {c : Char} {d : Nat} {l : List Char}
    (h : char_to_digit c 10 = some d) :
    read_digit 10 (c :: l) = (some d, l) := by
  rw [read_digit, h]

theorem read_two_digits_some {l l' : List Char} {n : Nat}
    (h : read_two_digits l = (some n, l')) :
    n ≤ 99 ∧ l = digit_char (n / 10) :: digit_char (n % 10) :: l' := by
  rw [read_two_digits] at h
  cases h1 : read_digit 10 l with
  | mk o1 l1 =>
    cases h2 : read_digit 10 l1 with
    | mk o2 l2 =>
      rw [h1, h2] at h
      cases o1 with
      | none => cases h
      | some d1 =>
        cases o2 with
        | none => cases h
        | some d2 =>
          simp only [] at h
          obtain ⟨hn, hl⟩ := Prod.mk.injEq .. ▸ h
          cases hn
          cases hl
          obtain ⟨c1, hc1, hd1⟩ := read_digit_some h1
          obtain ⟨c2, hc2, hd2⟩ := read_digit_some h2
          obtain ⟨he1, hlt1, _, _⟩ := char_to_digit10_some hd1
          obtain ⟨he2, hlt2, _, _⟩ := char_to_digit10_some hd2
          subst hc1
          subst hc2
          subst he1
          subst he2
          refine ⟨by omega, ?_⟩
          have hq : d1 * 10 + d2 >= 0 := by omega
          have h10 : (d1 * 10 + d2) / 10 = d1 := by omega
          have hmod : (d1 * 10 + d2) % 10 = d2 := by omega
          rw [h10, hmod]

theorem read_two_digits_pad2 {n : Nat} (rest : List Char) (h : n ≤ 99) :
    read_two_digits (pad2 n ++ rest) = (some n, rest) := by
  have h1 : n / 10 < 10 := by omega
  have h2 : n % 10 < 10 := by omega
  rw [pad2, read_two_digits]
  simp only [List.cons_append, List.nil_append]
  rw [read_digit_cons_of_digit (char_to_digit_digit_char h1),
    read_digit_cons_of_digit (char_to_digit_digit_char h2)]
  simp only []
  rw [show n / 10 * 10 + n % 10 = n from by omega]

theorem read_digits_loop_run :
    ∀ (cs rest : List Char) (num nd : Nat),
      (∀ c ∈ cs, '0' ≤ c ∧ c ≤ '9') →
      (∀ c l2, rest = c :: l2 → char_to_digit c 10 = none) →
      read_digits_loop num nd (cs ++ rest) =
        ((cs.foldl (fun a c => (a * 10 + (c.toNat - 48)) % 2 ^ 64) num,
          nd + cs.length), rest) := by
  intro cs
  induction cs with
  | nil =>
    intro rest num nd _ hrest
    cases rest with
    | nil => rfl
    | cons c l2 =>
      rw [List.nil_append, read_digits_loop, hrest c l2 rfl]
      simp
  | cons c cs' ih =>
    intro rest num nd hdec hrest
    have hc := hdec c (by simp)
    rw [List.cons_append]
    simp only [read_digits_loop, char_to_digit_dec hc.1 hc.2]
    rw [ih rest _ _ (fun x hx => hdec x (by simp [hx])) hrest]
    simp only [List.foldl_cons, List.length_cons]
    rw [show nd + 1 + cs'.length = nd + (cs'.length + 1) from by omega]

theorem read_digits_run {cs : List Char} (rest : List Char)
    (hne : cs ≠ []) (hdec : ∀ c ∈ cs, '0' ≤ c ∧ c ≤ '9')
    (hrest : ∀ c l2, rest = c :: l2 → char_to_digit c 10 = none) :
    read_digits (cs ++ rest) = ((some (decValMod cs), cs.length), rest) := by
  cases cs with
  | nil => exact absurd rfl hne
  | cons c cs' =>
    have hc := hdec c (by simp)
    obtain ⟨h48, h57⟩ := char_dec_toNat hc.1 hc.2
    rw [List.cons_append]
    simp only [read_digits, char_to_digit_dec hc.1 hc.2]
    rw [read_digits_loop_run cs' rest _ _ (fun x hx => hdec x (by simp [hx]))
      hrest]
    simp only [decValMod, List.foldl_cons, List.length_cons]
    rw [show (0 * 10 + (c.toNat - 48)) % 2 ^ 64 = c.toNat - 48 from by omega,
      Nat.add_comm 1 cs'.length]

/-! ## Helper lemmas: decimal renderings -/

theorem natToCharsAux_congr : ∀ (f g n : Nat), n < f → n < g →
    natToCharsAux f n = natToCharsAux g n := by
  intro f
  induction f with
  | zero => intro g n h; omega
  | succ f ih =>
    intro g n hf hg
    cases g with
    | zero => omega
    | succ g' =>
      rw [natToCharsAux, natToCharsAux]
      by_cases h10 : n < 10
      · rw [if_pos h10, if_pos h10]
      · have hdiv : n / 10 < n :=
          Nat.div_lt_self (by omega) (by omega)
        rw [if_neg h10, if_neg h10, ih g' (n / 10) (by omega) (by omega)]

theorem natToChars_eq (n : Nat) : natToChars n =
    if n < 10 then [digit_char n]
    else natToChars (n / 10) ++ [digit_char (n % 10)] := by
  rw [natToChars, natToCharsAux]
  by_cases h : n < 10
  · rw [if_pos h, if_pos h]
  · have hdiv : n / 10 < n := Nat.div_lt_self (by omega) (by omega)
    rw [if_neg h, if_neg h, natToChars,
      natToCharsAux_congr n (n / 10 + 1) (n / 10) (by omega) (by omega)]

theorem natToChars_dec : ∀ n, ∀ c ∈ natToChars n, '0' ≤ c ∧ c ≤ '9' := by
  intro n
  induction n using Nat.strong_induction_on with
  | _ n ih =>
    intro c hc
    rw [natToChars_eq] at hc
    by_cases h : n < 10
    · rw [if_pos h] at hc
      rw [List.mem_singleton] at hc
      subst hc
      obtain ⟨h1, h2, _, _⟩ := digit_char_dec h
      exact ⟨h1, h2⟩
    · rw [if_neg h, List.mem_append] at hc
      rcases hc with hc | hc
      · exact ih (n / 10) (Nat.div_lt_self (by omega) (by omega)) c hc
      · rw [List.mem_singleton] at hc
        subst hc
        obtain ⟨h1, h2, _, _⟩ := digit_char_dec (show n % 10 < 10 by omega)
        exact ⟨h1, h2⟩

theorem natToChars_ne_nil (n : Nat) : natToChars n ≠ [] := by
  rw [natToChars_eq]
  by_cases h : n < 10
  · rw [if_pos h]
    exact fun hh => by cases hh
  · rw [if_neg h]
    simp

theorem decValMod_natToChars : ∀ n, n < 2 ^ 64 → decValMod (natToChars n) = n := by
  intro n
  induction n using Nat.strong_induction_on with
  | _ n ih =>
    intro hlt
    rw [natToChars_eq]
    by_cases h : n < 10
    · rw [if_pos h]
      obtain ⟨_, _, h3, h4⟩ := digit_char_dec h
      rw [decValMod, List.foldl_cons, List.foldl_nil, h4]
      omega
    · have hdiv : n / 10 < n := Nat.div_lt_self (by omega) (by omega)
      rw [if_neg h]
      rw [decValMod, List.foldl_append]
      rw [show List.foldl (fun a c => (a * 10 + (c.toNat - 48)) % 2 ^ 64) 0
        (natToChars (n / 10)) = decValMod (natToChars (n / 10)) from rfl]
      rw [ih (n / 10) hdiv (by omega)]
      obtain ⟨_, _, h3, h4⟩ := digit_char_dec (show n % 10 < 10 by omega)
      rw [List.foldl_cons, List.foldl_nil, h4]
      omega

theorem pad4_dec {y : Nat} (h : y ≤ 9999) :
    ∀ c ∈ pad4 y, '0' ≤ c ∧ c ≤ '9' := by
  intro c hc
  rw [pad4] at hc
  have d1 : y / 1000 < 10 := by omega
  have d2 : y / 100 % 10 < 10 := by omega
  have d3 : y / 10 % 10 < 10 := by omega
  have d4 : y % 10 < 10 := by omega
  simp only [List.mem_cons, List.not_mem_nil, or_false] at hc
  rcases hc with rfl | rfl | rfl | rfl
  · exact ⟨(digit_char_dec d1).1, (digit_char_dec d1).2.1⟩
  · exact ⟨(digit_char_dec d2).1, (digit_char_dec d2).2.1⟩
  · exact ⟨(digit_char_dec d3).1, (digit_char_dec d3).2.1⟩
  · exact ⟨(digit_char_dec d4).1, (digit_char_dec d4).2.1⟩

theorem decValMod_pad4 {y : Nat} (h : y ≤ 9999) : decValMod (pad4 y) = y := by
  have d1 := (digit_char_dec (show y / 1000 < 10 by omega)).2.2.2
  have d2 := (digit_char_dec (show y / 100 % 10 < 10 by omega)).2.2.2
  have d3 := (digit_char_dec (show y / 10 % 10 < 10 by omega)).2.2.2
  have d4 := (digit_char_dec (show y % 10 < 10 by omega)).2.2.2
  rw [decValMod, pad4, List.foldl_cons, List.foldl_cons, List.foldl_cons,
    List.foldl_cons, List.foldl_nil, d1, d2, d3, d4]
  have s1 : (0 * 10 + (48 + y / 1000 - 48)) % 2 ^ 64 = y / 1000 := by omega
  rw [s1]
  have s2 : (y / 1000 * 10 + (48 + y / 100 % 10 - 48)) % 2 ^ 64 =
      y / 1000 * 10 + y / 100 % 10 := by omega
  rw [s2]
  have s3 : ((y / 1000 * 10 + y / 100 % 10) * 10 + (48 + y / 10 % 10 - 48)) %
      2 ^ 64 = (y / 1000 * 10 + y / 100 % 10) * 10 + y / 10 % 10 := by omega
  rw [s3]
  have s4 : (((y / 1000 * 10 + y / 100 % 10) * 10 + y / 10 % 10) * 10 +
      (48 + y % 10 - 48)) % 2 ^ 64 =
      ((y / 1000 * 10 + y / 100 % 10) * 10 + y / 10 % 10) * 10 + y % 10 := by
    omega
  rw [s4]
  omega

/-! ## Helper lemmas: the datetime continuation -/

/-- Complete characterisation of `parse_datetime_rest`: it yields `NoValue`,
or a bounds-checked `Datetime` having consumed exactly the canonical
`MM-DDThh:mm:ssZ` character sequence. -/
theorem parse_datetime_rest_cases :
    ∀ (y : Nat) (l : List Char) (v : Value) (l' : List Char),
      parse_datetime_rest y l = (v, l') →
      v = .NoValue ∨
      ∃ mo d h mi s, v = .Datetime (y % 65536) mo d h mi s ∧
        dt_bounds mo d h mi s ∧ l = dt_rest_chars mo d h mi s ++ l' := by
  intro y l v l' h
  rw [parse_datetime_rest] at h
  rcases h1 : read_two_digits l with ⟨o1, l1⟩
  rw [h1] at h
  cases o1 with
  | none => simp only [] at h; cases h; exact Or.inl rfl
  | some mo =>
    simp only [] at h
    rcases h2 : advance_if '-' l1 with ⟨b2, l2⟩
    rw [h2] at h
    cases b2 with
    | false => simp only [] at h; cases h; exact Or.inl rfl
    | true =>
      simp only [] at h
      rcases h3 : read_two_digits l2 with ⟨o3, l3⟩
      rw [h3] at h
      cases o3 with
      | none => simp only [] at h; cases h; exact Or.inl rfl
      | some d =>
        simp only [] at h
        rcases h4 : advance_if 'T' l3 with ⟨b4, l4⟩
        rw [h4] at h
        cases b4 with
        | false => simp only [] at h; cases h; exact Or.inl rfl
        | true =>
          simp only [] at h
          rcases h5 : read_two_digits l4 with ⟨o5, l5⟩
          rw [h5] at h
          cases o5 with
          | none => simp only [] at h; cases h; exact Or.inl rfl
          | some hh =>
            simp only [] at h
            rcases h6 : advance_if ':' l5 with ⟨b6, l6⟩
            rw [h6] at h
            cases b6 with
            | false => simp only [] at h; cases h; exact Or.inl rfl
            | true =>
              simp only [] at h
              rcases h7 : read_two_digits l6 with ⟨o7, l7⟩
              rw [h7] at h
              cases o7 with
              | none => simp only [] at h; cases h; exact Or.inl rfl
              | some mi =>
                simp only [] at h
                rcases h8 : advance_if ':' l7 with ⟨b8, l8⟩
                rw [h8] at h
                cases b8 with
                | false => simp only [] at h; cases h; exact Or.inl rfl
                | true =>
                  simp only [] at h
                  rcases h9 : read_two_digits l8 with ⟨o9, l9⟩
                  rw [h9] at h
                  cases o9 with
                  | none => simp only [] at h; cases h; exact Or.inl rfl
                  | some s =>
                    simp only [] at h
                    rcases h10 : advance_if 'Z' l9 with ⟨b10, l10⟩
                    rw [h10] at h
                    cases b10 with
                    | false => simp only [] at h; cases h; exact Or.inl rfl
                    | true =>
                      simp only [] at h
                      split at h
                      · cases h
                        rename_i hguard
                        refine Or.inr ⟨mo, d, hh, mi, s, rfl, hguard, ?_⟩
                        obtain ⟨_, e1⟩ := read_two_digits_some h1
                        obtain ⟨_, e3⟩ := read_two_digits_some h3
                        obtain ⟨_, e5⟩ := read_two_digits_some h5
                        obtain ⟨_, e7⟩ := read_two_digits_some h7
                        obtain ⟨_, e9⟩ := read_two_digits_some h9
                        have e2 := advance_if_true h2
                        have e4 := advance_if_true h4
                        have e6 := advance_if_true h6
                        have e8 := advance_if_true h8
                        have e10 := advance_if_true h10
                        rw [e1, e2, e3, e4, e5, e6, e7, e8, e9, e10]
                        simp [dt_rest_chars, pad2]
                      · cases h; exact Or.inl rfl

/-- Forward run of `parse_datetime_rest` on the canonical rendering. -/
theorem parse_datetime_rest_forward {mo d h mi s : Nat} (y : Nat)
    (rest : List Char) (hb : dt_bounds mo d h mi s) :
    parse_datetime_rest y (dt_rest_chars mo d h mi s ++ rest) =
      (.Datetime (y % 65536) mo d h mi s, rest) := by
  obtain ⟨b1, b2, b3, b4, b5, b6, b7⟩ := hb
  rw [dt_rest_chars]
  simp only [List.append_assoc, List.cons_append]
  rw [parse_datetime_rest]
  rw [read_two_digits_pad2 _ (by omega)]
  simp only [advance_if_cons]
  rw [read_two_digits_pad2 _ (by omega)]
  simp only [advance_if_cons]
  rw [read_two_digits_pad2 _ (by omega)]
  simp only [advance_if_cons]
  rw [read_two_digits_pad2 _ (by omega)]
  simp only [advance_if_cons]
  rw [read_two_digits_pad2 _ (by omega)]
  simp only [advance_if_cons]
  rw [if_pos (by exact ⟨b1, b2, b3, b4, b5, b6, b7⟩), List.nil_append]

/-! ## Helper lemmas: result shapes of the value sub-parsers -/

theorem pv_shape_novalue : pv_shape .NoValue := Or.inl rfl

theorem pv_shape_boolean (b : Bool) : pv_shape (.Boolean b) :=
  Or.inr (Or.inl ⟨b, rfl⟩)

theorem pv_shape_posint (n : Nat) : pv_shape (.PosInt n) :=
  Or.inr (Or.inr (Or.inl ⟨n, rfl⟩))

theorem pv_shape_negint (n : Nat) : pv_shape (.NegInt n) :=
  Or.inr (Or.inr (Or.inr (Or.inl ⟨n, rfl⟩)))

theorem pv_shape_float (q : Rat) : pv_shape (.Float q) :=
  Or.inr (Or.inr (Or.inr (Or.inr (Or.inl ⟨q, rfl⟩))))

theorem pv_shape_str (s : String) : pv_shape (.Str s) :=
  Or.inr (Or.inr (Or.inr (Or.inr (Or.inr (Or.inl ⟨s, rfl⟩)))))

theorem pv_shape_datetime {y mo d h mi s : Nat} (hb : dt_bounds mo d h mi s) :
    pv_shape (.Datetime y mo d h mi s) :=
  Or.inr (Or.inr (Or.inr (Or.inr (Or.inr (Or.inr
    (Or.inl ⟨y, mo, d, h, mi, s, rfl, hb⟩))))))

theorem pv_shape_array {arr : List Value} (hh : homog arr) :
    pv_shape (.Array arr) :=
  Or.inr (Or.inr (Or.inr (Or.inr (Or.inr (Or.inr (Or.inr ⟨arr, rfl, hh⟩))))))

theorem pv_shape_datetime_bounds {y mo d hr mi s : Nat}
    (hp : pv_shape (.Datetime y mo d hr mi s)) : dt_bounds mo d hr mi s := by
  rcases hp with h | ⟨b, h⟩ | ⟨n, h⟩ | ⟨n, h⟩ | ⟨q, h⟩ | ⟨st, h⟩ |
    ⟨y', mo', d', h', mi', s', he, hb⟩ | ⟨arr, h, _⟩
  · cases h
  · cases h
  · cases h
  · cases h
  · cases h
  · cases h
  · cases he; exact hb
  · cases h

theorem pv_shape_array_homog {arr : List Value}
    (hp : pv_shape (.Array arr)) : homog arr := by
  rcases hp with h | ⟨b, h⟩ | ⟨n, h⟩ | ⟨n, h⟩ | ⟨q, h⟩ | ⟨st, h⟩ |
    ⟨y', mo', d', h', mi', s', he, hb⟩ | ⟨arr', h, hh⟩
  · cases h
  · cases h
  · cases h
  · cases h
  · cases h
  · cases h
  · cases he
  · cases h; exact hh

theorem parse_float_rest_cases {n : Nat} {mul : Rat} {l : List Char}
    {v : Value} {l' : List Char} (h : parse_float_rest n mul l = (v, l')) :
    (∃ q, v = .Float q) ∨ v = .NoValue := by
  cases l with
  | nil => cases h; exact Or.inr rfl
  | cons c ls =>
    rw [parse_float_rest] at h
    split at h
    · cases h; exact Or.inl ⟨_, rfl⟩
    · cases h; exact Or.inr rfl

theorem parse_value_neg_cases {l : List Char} {v : Value} {l' : List Char}
    (h : parse_value_neg l = (v, l')) :
    (∃ n, v = .NegInt n) ∨ (∃ q, v = .Float q) ∨ v = .NoValue := by
  rw [parse_value_neg] at h
  rcases hd : read_digits l with ⟨⟨o, nd⟩, l1⟩
  rw [hd] at h
  cases o with
  | none => simp only [] at h; cases h; exact Or.inr (Or.inr rfl)
  | some n =>
    simp only [] at h
    split at h
    · rcases parse_float_rest_cases h with ⟨q, rfl⟩ | rfl
      · exact Or.inr (Or.inl ⟨q, rfl⟩)
      · exact Or.inr (Or.inr rfl)
    · cases h; exact Or.inl ⟨n, rfl⟩

theorem parse_value_digits_cases {l : List Char} {v : Value} {l' : List Char}
    (h : parse_value_digits l = (v, l')) :
    (∃ n, v = .PosInt n) ∨ (∃ q, v = .Float q) ∨
    (∃ y mo d hh mi s, v = .Datetime y mo d hh mi s ∧ dt_bounds mo d hh mi s) ∨
    v = .NoValue := by
  rw [parse_value_digits] at h
  rcases hd : read_digits l with ⟨⟨o, nd⟩, l1⟩
  rw [hd] at h
  cases o with
  | none => simp only [] at h; cases h; exact Or.inr (Or.inr (Or.inr rfl))
  | some n =>
    simp only [] at h
    split at h
    · rcases parse_float_rest_cases h with ⟨q, rfl⟩ | rfl
      · exact Or.inr (Or.inl ⟨q, rfl⟩)
      · exact Or.inr (Or.inr (Or.inr rfl))
    · split at h
      · cases h; exact Or.inr (Or.inr (Or.inr rfl))
      · rcases parse_datetime_rest_cases _ _ _ _ h with rfl |
          ⟨mo, d, hh, mi, s, rfl, hb, _⟩
        · exact Or.inr (Or.inr (Or.inr rfl))
        · exact Or.inr (Or.inr (Or.inl ⟨_, mo, d, hh, mi, s, rfl, hb⟩))
    · cases h; exact Or.inl ⟨n, rfl⟩

theorem finish_array_cases {acc : List Value} {l : List Char} {v : Value}
    {l' : List Char} (h : finish_array acc l = (v, l')) :
    v = .Array acc ∨ v = .NoValue := by
  rw [finish_array] at h
  rcases ha : advance_if ']' (skip_whitespaces_and_comments l) with ⟨b, l2⟩
  rw [ha] at h
  cases b with
  | true => simp only [] at h; cases h; exact Or.inl rfl
  | false => simp only [] at h; cases h; exact Or.inr rfl

theorem homog_singleton (v : Value) : homog [v] := by
  intro hd tl hh x hx
  cases hh
  cases hx

theorem homog_append {a : Value} {rest : List Value} {val : Value}
    (hacc : homog (a :: rest)) (heq : have_equiv_types a val = true) :
    homog ((a :: rest) ++ [val]) := by
  intro hd tl hh x hx
  rw [List.cons_append] at hh
  cases hh
  rw [List.mem_append, List.mem_singleton] at hx
  rcases hx with hx | rfl
  · exact hacc a rest rfl x hx
  · exact heq

/-- One non-`NoValue` step of the array-element loop preserves the
classification. -/
theorem parse_array_loop_step {fuel : Nat} {acc : List Value} {val : Value}
    {l1 : List Char} {v : Value} {l' : List Char}
    (ihl : ∀ acc l v l', parse_array_loop fuel acc l = (v, l') → homog acc →
      v = .NoValue ∨ (∃ arr, v = .Array arr ∧ homog arr))
    (h : (match acc with
          | [] =>
            match advance_if ',' (skip_whitespaces_and_comments l1) with
            | (true, l3) => parse_array_loop fuel [val] l3
            | (false, l3) => finish_array [val] l3
          | a :: _ =>
            if have_equiv_types a val = true then
              match advance_if ',' (skip_whitespaces_and_comments l1) with
              | (true, l3) => parse_array_loop fuel (acc ++ [val]) l3
              | (false, l3) => finish_array (acc ++ [val]) l3
            else (.NoValue, l1)) = (v, l'))
    (hacc : homog acc) :
    v = .NoValue ∨ ∃ arr, v = .Array arr ∧ homog arr := by
  cases acc with
  | nil =>
    simp only [] at h
    rcases ha : advance_if ',' (skip_whitespaces_and_comments l1) with ⟨b, l3⟩
    rw [ha] at h
    cases b with
    | true =>
      simp only [] at h
      exact ihl [val] l3 v l' h (homog_singleton val)
    | false =>
      simp only [] at h
      rcases finish_array_cases h with rfl | rfl
      · exact Or.inr ⟨[val], rfl, homog_singleton val⟩
      · exact Or.inl rfl
  | cons a rest =>
    simp only [] at h
    split at h
    · rcases ha : advance_if ',' (skip_whitespaces_and_comments l1) with ⟨b, l3⟩
      rw [ha] at h
      rename_i heq
      cases b with
      | true =>
        simp only [] at h
        exact ihl ((a :: rest) ++ [val]) l3 v l' h (homog_append hacc heq)
      | false =>
        simp only [] at h
        rcases finish_array_cases h with rfl | rfl
        · exact Or.inr ⟨(a :: rest) ++ [val], rfl, homog_append hacc heq⟩
        · exact Or.inl rfl
    · cases h
      exact Or.inl rfl

/-- Classification of every `parse_value` / `parse_array_loop` result:
scalars, bounds-checked datetimes, or homogeneous arrays. -/
theorem pv_classify : ∀ fuel : Nat,
    (∀ l v l', parse_value fuel l = (v, l') → pv_shape v) ∧
    (∀ acc l v l', parse_array_loop fuel acc l = (v, l') → homog acc →
      v = .NoValue ∨ (∃ arr, v = .Array arr ∧ homog arr)) := by
  intro fuel
  induction fuel with
  | zero =>
    constructor
    · intro l v l' h
      cases h
      exact pv_shape_novalue
    · intro acc l v l' h _
      cases h
      exact Or.inl rfl
  | succ fuel ih =>
    constructor
    · intro l v l' h
      rw [parse_value] at h
      rcases hsk : skip_whitespaces_and_comments l with _ | ⟨c, ls⟩
      · rw [hsk] at h
        simp only [] at h
        cases h
        exact pv_shape_novalue
      · rw [hsk] at h
        simp only [] at h
        split at h
        · rcases parse_value_neg_cases h with ⟨n, rfl⟩ | ⟨q, rfl⟩ | rfl
          · exact pv_shape_negint n
          · exact pv_shape_float q
          · exact pv_shape_novalue
        · split at h
          · rcases parse_value_digits_cases h with ⟨n, rfl⟩ | ⟨q, rfl⟩ |
              ⟨y, mo, d, hh, mi, s, rfl, hb⟩ | rfl
            · exact pv_shape_posint n
            · exact pv_shape_float q
            · exact pv_shape_datetime hb
            · exact pv_shape_novalue
          · split at h
            · split at h
              · split at h
                · split at h
                  · cases h; exact pv_shape_boolean true
                  · cases h; exact pv_shape_novalue
                · cases h; exact pv_shape_novalue
              · cases h; exact pv_shape_novalue
            · split at h
              · split at h
                · split at h
                  · split at h
                    · split at h
                      · cases h; exact pv_shape_boolean false
                      · cases h; exact pv_shape_novalue
                    · cases h; exact pv_shape_novalue
                  · cases h; exact pv_shape_novalue
                · cases h; exact pv_shape_novalue
              · split at h
                · rcases ih.2 [] ls v l' h (fun hd tl hh => by cases hh) with
                    rfl | ⟨arr, rfl, hh⟩
                  · exact pv_shape_novalue
                  · exact pv_shape_array hh
                · split at h
                  · split at h
                    · cases h; exact pv_shape_str _
                    · cases h; exact pv_shape_novalue
                  · cases h; exact pv_shape_novalue
    · intro acc l v l' h hacc
      rw [parse_array_loop] at h
      rcases hpv : parse_value fuel l with ⟨val, l1⟩
      rw [hpv] at h
      cases val with
      | NoValue =>
        simp only [] at h
        rcases finish_array_cases h with rfl | rfl
        · exact Or.inr ⟨acc, rfl, hacc⟩
        · exact Or.inl rfl
      | Boolean b =>
        simp only [] at h
        exact parse_array_loop_step ih.2 h hacc
      | PosInt n =>
        simp only [] at h
        exact parse_array_loop_step ih.2 h hacc
      | NegInt n =>
        simp only [] at h
        exact parse_array_loop_step ih.2 h hacc
      | Float q =>
        simp only [] at h
        exact parse_array_loop_step ih.2 h hacc
      | Str st =>
        simp only [] at h
        exact parse_array_loop_step ih.2 h hacc
      | Datetime y mo d hh mi s =>
        simp only [] at h
        exact parse_array_loop_step ih.2 h hacc
      | Array es =>
        simp only [] at h
        exact parse_array_loop_step ih.2 h hacc
      | TableArray es =>
        simp only [] at h
        exact parse_array_loop_step ih.2 h hacc
      | Table b m =>
        simp only [] at h
        exact parse_array_loop_step ih.2 h hacc

/-! ## Helper lemmas: forward runs of `parse_value` -/

theorem skip_wc_cons {c : Char} {ls : List Char}
    (hws : ¬(c = ' ' ∨ c = '\t' ∨ c = '\r' ∨ c = '\n')) (hcm : c ≠ '#') :
    skip_whitespaces_and_comments (c :: ls) = c :: ls := by
  rw [skip_whitespaces_and_comments, skip_wc_aux, if_neg hws, if_neg hcm]

theorem skip_wc_space (ls : List Char) :
    skip_whitespaces_and_comments (' ' :: ls) =
      skip_whitespaces_and_comments ls := by
  rw [skip_whitespaces_and_comments, skip_wc_aux, if_pos (Or.inl rfl)]
  rfl

/-- On a digit first character, `parse_value` defers to the digit branch. -/
theorem parse_value_to_digits {fuel : Nat} {l : List Char} {c : Char}
    {ls : List Char} (hsk : skip_whitespaces_and_comments l = c :: ls)
    (hdec : '0' ≤ c ∧ c ≤ '9') :
    parse_value (fuel + 1) l = parse_value_digits (c :: ls) := by
  have hneg : ¬(c = '-') := by
    intro hh
    subst hh
    exact absurd (char_dec_toNat hdec.1 hdec.2).1 (by decide)
  rw [parse_value, hsk]
  simp only []
  rw [if_neg hneg, if_pos hdec]

/-- On a `-` first character, `parse_value` defers to the signed branch. -/
theorem parse_value_to_neg {fuel : Nat} {l : List Char} {ls : List Char}
    (hsk : skip_whitespaces_and_comments l = '-' :: ls) :
    parse_value (fuel + 1) l = parse_value_neg ls := by
  rw [parse_value, hsk]
  rfl

/-- An unsigned digit run not followed by `.` or `-` parses as `PosInt`. -/
theorem parse_value_posint_run {fuel : Nat} {l cs rest : List Char}
    (hne : cs ≠ []) (hdec : ∀ c ∈ cs, '0' ≤ c ∧ c ≤ '9')
    (hsk : skip_whitespaces_and_comments l = cs ++ rest)
    (hrest : ∀ c l2, rest = c :: l2 →
      char_to_digit c 10 = none ∧ c ≠ '.' ∧ c ≠ '-') :
    parse_value (fuel + 1) l = (.PosInt (decValMod cs), rest) := by
  cases cs with
  | nil => exact absurd rfl hne
  | cons c cs' =>
    rw [List.cons_append] at hsk
    rw [parse_value_to_digits hsk (hdec c (by simp)), parse_value_digits,
      ← List.cons_append,
      read_digits_run rest hne hdec (fun x l2 hx => (hrest x l2 hx).1)]
    simp only []
    cases rest with
    | nil => rfl
    | cons c2 l2 =>
      obtain ⟨hnd, hdot, hdash⟩ := hrest c2 l2 rfl
      split
      · rename_i heq
        injection heq with h1 h2
        exact absurd h1 hdot
      · rename_i heq
        injection heq with h1 h2
        exact absurd h1 hdash
      · rfl

/-- A signed digit run not followed by `.` parses as `NegInt` (even when a
`-` follows: the signed branch never attempts a datetime). -/
theorem parse_value_negint_run {fuel : Nat} {l cs rest : List Char}
    (hne : cs ≠ []) (hdec : ∀ c ∈ cs, '0' ≤ c ∧ c ≤ '9')
    (hsk : skip_whitespaces_and_comments l = '-' :: (cs ++ rest))
    (hrest : ∀ c l2, rest = c :: l2 →
      char_to_digit c 10 = none ∧ c ≠ '.') :
    parse_value (fuel + 1) l = (.NegInt (decValMod cs), rest) := by
  rw [parse_value_to_neg hsk, parse_value_neg,
    read_digits_run rest hne hdec (fun x l2 hx => (hrest x l2 hx).1)]
  simp only []
  cases rest with
  | nil => rfl
  | cons c2 l2 =>
    obtain ⟨hnd, hdot⟩ := hrest c2 l2 rfl
    split
    · rename_i heq
      injection heq with h1 h2
      exact absurd h1 hdot
    · rfl

/-- An unsigned run of exactly 4 digits followed by `-` enters the datetime
continuation with the run's value as the year. -/
theorem parse_value_datetime_entry {fuel : Nat} {l cs rest : List Char}
    (hlen : cs.length = 4) (hdec : ∀ c ∈ cs, '0' ≤ c ∧ c ≤ '9')
    (hsk : skip_whitespaces_and_comments l = cs ++ '-' :: rest) :
    parse_value (fuel + 1) l = parse_datetime_rest (decValMod cs) rest := by
  have hne : cs ≠ [] := by
    intro h; rw [h] at hlen; cases hlen
  cases cs with
  | nil => exact absurd rfl hne
  | cons c cs' =>
    rw [List.cons_append] at hsk
    rw [parse_value_to_digits hsk (hdec c (by simp)), parse_value_digits,
      ← List.cons_append,
      read_digits_run ('-' :: rest) hne hdec
        (fun x l2 hx => by cases hx; rfl)]
    simp only []
    rw [hlen, if_neg (by omega)]

/-! ## Claim C3 -/

/-- C3: every array element after the first must be type-equivalent to the
first (checked against the array head), with `PosInt`/`NegInt` mutually
equivalent and any two `Array`s equivalent; `x = [1, "a"]` fails with
`ParseError` while `x = [1, 2, -3]` succeeds. -/
theorem C3_array_homogeneity :
    (∀ (fuel : Nat) (l : List Char) (arr : List Value) (l' : List Char),
      parse_value fuel l = (.Array arr, l') →
      ∀ hd tl, arr = hd :: tl → ∀ v ∈ tl, have_equiv_types hd v = true) ∧
    (∀ a b : Nat, have_equiv_types (.PosInt a) (.NegInt b) = true ∧
      have_equiv_types (.NegInt a) (.PosInt b) = true ∧
      have_equiv_types (.PosInt a) (.PosInt b) = true ∧
      have_equiv_types (.NegInt a) (.NegInt b) = true) ∧
    (∀ xs ys : List Value, have_equiv_types (.Array xs) (.Array ys) = true) ∧
    parse_from_chars "x = [1, \"a\"]".data .eof = some (.error .ParseError) ∧
    parse_from_chars "x = [1, 2, -3]".data .eof =
      some (.ok (.Table false
        [("x", .Array [.PosInt 1, .PosInt 2, .NegInt 3])])) := by
  refine ⟨?_, fun a b => ⟨rfl, rfl, rfl, rfl⟩, fun xs ys => rfl, rfl, rfl⟩
  intro fuel l arr l' h hd tl harr v hv
  exact pv_shape_array_homog ((pv_classify fuel).1 l _ l' h) hd tl harr v hv

theorem C3_array_homogeneity_witness :
    have_equiv_types (.PosInt 1) (.NegInt 3) = true :=
  C3_array_homogeneity.1 30 "[1, -3]".data [.PosInt 1, .NegInt 3] [] rfl
    (.PosInt 1) [.NegInt 3] rfl (.NegInt 3) (by simp)

/-! ## Claim C4 (corrected) -/

/-- C4 counterexample: a *signed* digit run of exactly 4 digits followed by
`-` is NOT parsed as a datetime continuation — the `'-'` branch of
`parse_value` (lib.rs:504-521) never attempts a datetime, so
`-1234-05-06T07:08:09Z` parses as `NegInt 1234`. -/
theorem C4_counterexample :
    parse_value 1 "-1234-05-06T07:08:09Z".data =
      (.NegInt 1234, "-05-06T07:08:09Z".data) ∧
    (parse_value 1 "-1234-05-06T07:08:09Z".data).1 ≠
      .Datetime 1234 5 6 7 8 9 := by
  refine ⟨rfl, ?_⟩
  intro h
  rw [show (parse_value 1 "-1234-05-06T07:08:09Z".data).1 = .NegInt 1234
    from rfl] at h
  cases h

/-- C4 (amended): an *unsigned* decimal digit run of exactly 4 digits
followed by `-` is parsed as a datetime continuation of the exact form
`YYYY-MM-DDThh:mm:ssZ` (any malformed or out-of-bounds continuation yields
no value); a digit run not followed by `.` or `-` is a `PosInt`, and after
a leading `-` a digit run not followed by `.` is a `NegInt` (the signed
branch never attempts a datetime); and every `Datetime(y,m,d,h,min,s)`
produced satisfies m ∈ [1,12], d ∈ [1,31], h ≤ 24, min ≤ 60, s ≤ 60. -/
theorem C4_datetime_shape :
    (∀ (fuel : Nat) (l : List Char) (y mo d hr mi s : Nat) (l' : List Char),
      parse_value fuel l = (.Datetime y mo d hr mi s, l') →
      dt_bounds mo d hr mi s) ∧
    (∀ (y : Nat) (l : List Char) (v : Value) (l' : List Char),
      parse_datetime_rest y l = (v, l') →
      v = .NoValue ∨
      ∃ mo d hr mi s, v = .Datetime (y % 65536) mo d hr mi s ∧
        dt_bounds mo d hr mi s ∧ l = dt_rest_chars mo d hr mi s ++ l') ∧
    (∀ (y mo d hr mi s : Nat) (rest : List Char), dt_bounds mo d hr mi s →
      parse_datetime_rest y (dt_rest_chars mo d hr mi s ++ rest) =
        (.Datetime (y % 65536) mo d hr mi s, rest)) ∧
    (∀ (fuel : Nat) (l cs rest : List Char), cs.length = 4 →
      (∀ c ∈ cs, '0' ≤ c ∧ c ≤ '9') →
      skip_whitespaces_and_comments l = cs ++ '-' :: rest →
      parse_value (fuel + 1) l = parse_datetime_rest (decValMod cs) rest) ∧
    (∀ (fuel : Nat) (l cs rest : List Char), cs ≠ [] →
      (∀ c ∈ cs, '0' ≤ c ∧ c ≤ '9') →
      skip_whitespaces_and_comments l = cs ++ rest →
      (∀ c l2, rest = c :: l2 →
        char_to_digit c 10 = none ∧ c ≠ '.' ∧ c ≠ '-') →
      parse_value (fuel + 1) l = (.PosInt (decValMod cs), rest)) ∧
    (∀ (fuel : Nat) (l cs rest : List Char), cs ≠ [] →
      (∀ c ∈ cs, '0' ≤ c ∧ c ≤ '9') →
      skip_whitespaces_and_comments l = '-' :: (cs ++ rest) →
      (∀ c l2, rest = c :: l2 → char_to_digit c 10 = none ∧ c ≠ '.') →
      parse_value (fuel + 1) l = (.NegInt (decValMod cs), rest)) := by
  refine ⟨?_, parse_datetime_rest_cases, ?_, ?_, ?_, ?_⟩
  · intro fuel l y mo d hr mi s l' h
    exact pv_shape_datetime_bounds ((pv_classify fuel).1 l _ l' h)
  · intro y mo d hr mi s rest hb
    exact parse_datetime_rest_forward y rest hb
  · intro fuel l cs rest hlen hdec hsk
    exact parse_value_datetime_entry hlen hdec hsk
  · intro fuel l cs rest hne hdec hsk hrest
    exact parse_value_posint_run hne hdec hsk hrest
  · intro fuel l cs rest hne hdec hsk hrest
    exact parse_value_negint_run hne hdec hsk hrest

theorem C4_datetime_shape_witness :
    dt_bounds 5 27 7 32 0 ∧
    parse_datetime_rest 1979 (dt_rest_chars 5 27 7 32 0 ++ []) =
      (.Datetime (1979 % 65536) 5 27 7 32 0, []) ∧
    parse_value 3 "2024-01-02T03:04:05Z".data =
      parse_datetime_rest (decValMod "2024".data) "01-02T03:04:05Z".data ∧
    parse_value 3 "42".data = (.PosInt (decValMod "42".data), []) ∧
    parse_value 3 "-42".data = (.NegInt (decValMod "42".data), []) := by
  have hb : dt_bounds 5 27 7 32 0 :=
    C4_datetime_shape.1 2 "1979-05-27T07:32:00Z".data 1979 5 27 7 32 0 []
      rfl
  refine ⟨hb, C4_datetime_shape.2.2.1 1979 5 27 7 32 0 [] hb, ?_, ?_, ?_⟩
  · exact C4_datetime_shape.2.2.2.1 2 "2024-01-02T03:04:05Z".data
      "2024".data "01-02T03:04:05Z".data rfl (by decide) rfl
  · exact C4_datetime_shape.2.2.2.2.1 2 "42".data "42".data []
      (fun h => by cases h) (by decide) rfl (fun c l2 h => by cases h)
  · exact C4_datetime_shape.2.2.2.2.2 2 "-42".data "42".data []
      (fun h => by cases h) (by decide) rfl (fun c l2 h => by cases h)

/-! ## Helper lemmas: error provenance of the top-level loop (claim C7) -/

theorem eos_result_ioerror {t : Term} {root : Tbl} {e : Nat}
    (h : eos_result t root = some (.error (.IOError e))) : t = .ioerr e := by
  cases t with
  | eof => cases h
  | ioerr e' => cases h; rfl

theorem eos_result_ok {t : Term} {root root' : Tbl}
    (h : eos_result t root = some (.ok root')) : t = .eof := by
  cases t with
  | eof => rfl
  | ioerr e' => cases h

theorem section_after_halt {ds : Bool} {l1 : List Char} {root : Tbl}
    {r : Option (Except Error Tbl)} (h : section_after ds l1 root = .halt r) :
    r = none ∨ r = some (.error .ParseError) := by
  rw [section_after] at h
  split at h
  · cases h
    exact Or.inr rfl
  · split at h
    · cases h
      exact Or.inr rfl
    · split at h
      · cases h
        exact Or.inr rfl
      · simp only [] at h
        rcases hrec : recursive_create_tree
            (splitDots (String.mk (parse_section_identifier l1).1)) root ds
            with _ | ⟨ok, root2⟩
        · rw [hrec] at h
          simp only [] at h
          cases h
          exact Or.inl rfl
        · rw [hrec] at h
          cases ok with
          | false =>
            simp only [] at h
            cases h
            exact Or.inr rfl
          | true =>
            simp only [] at h
            cases h

/-- A halting section step carries a builder panic or a `ParseError`. -/
theorem section_step_halt {ls : List Char} {root : Tbl}
    {r : Option (Except Error Tbl)} (h : section_step ls root = .halt r) :
    r = none ∨ r = some (.error .ParseError) := by
  rw [section_step.eq_def] at h
  split at h
  · exact section_after_halt h
  · exact section_after_halt h

/-- A halting pair step carries a builder panic or a `ParseError`. -/
theorem pair_step_halt {c : Char} {ls : List Char} {root : Tbl}
    {path : List String} {r : Option (Except Error Tbl)}
    (h : pair_step c ls root path = .halt r) :
    r = none ∨ r = some (.error .ParseError) := by
  rw [pair_step] at h
  repeat' split at h
  all_goals cases h
  all_goals first
    | exact Or.inl rfl
    | exact Or.inr rfl

/-- `parseLoop` reports `IOError e` only when the terminal condition of the
source really is the fault `e`. -/
theorem parseLoop_ioerror_source : ∀ (t : Term) (fuel : Nat),
    ∀ (l : List Char) (root : Tbl) (path : List String) (e : Nat),
      parseLoop t fuel l root path = some (.error (.IOError e)) →
      t = .ioerr e := by
  intro t fuel
  induction fuel with
  | zero => intro l root path e h; cases h
  | succ fuel ih =>
    intro l root path e h
    rw [parseLoop] at h
    rcases hsk : skip_whitespaces_and_comments l with _ | ⟨c, ls⟩
    · rw [hsk] at h
      exact eos_result_ioerror h
    · rw [hsk] at h
      simp only [] at h
      by_cases hc : c = '['
      · rw [if_pos hc] at h
        rcases hstep : section_step ls root with r | ⟨l1, root1, path1⟩
        · rw [hstep] at h
          rcases section_step_halt hstep with rfl | rfl
          · cases h
          · cases h
        · rw [hstep] at h
          exact ih _ _ _ _ h
      · rw [if_neg hc] at h
        rcases hstep : pair_step c ls root path with r | ⟨l1, root1, path1⟩
        · rw [hstep] at h
          rcases pair_step_halt hstep with rfl | rfl
          · cases h
          · cases h
        · rw [hstep] at h
          exact ih _ _ _ _ h

/-- `parseLoop` succeeds only when the terminal condition is a clean EOF. -/
theorem parseLoop_ok_source : ∀ (t : Term) (fuel : Nat),
    ∀ (l : List Char) (root : Tbl) (path : List String) (root' : Tbl),
      parseLoop t fuel l root path = some (.ok root') → t = .eof := by
  intro t fuel
  induction fuel with
  | zero => intro l root path root' h; cases h
  | succ fuel ih =>
    intro l root path root' h
    rw [parseLoop] at h
    rcases hsk : skip_whitespaces_and_comments l with _ | ⟨c, ls⟩
    · rw [hsk] at h
      exact eos_result_ok h
    · rw [hsk] at h
      simp only [] at h
      by_cases hc : c = '['
      · rw [if_pos hc] at h
        rcases hstep : section_step ls root with r | ⟨l1, root1, path1⟩
        · rw [hstep] at h
          rcases section_step_halt hstep with rfl | rfl
          · cases h
          · cases h
        · rw [hstep] at h
          exact ih _ _ _ _ h
      · rw [if_neg hc] at h
        rcases hstep : pair_step c ls root path with r | ⟨l1, root1, path1⟩
        · rw [hstep] at h
          rcases pair_step_halt hstep with rfl | rfl
          · cases h
          · cases h
        · rw [hstep] at h
          exact ih _ _ _ _ h

/-! ## Claim C7 (corrected) -/

/-- C7 counterexample: a genuine read fault CAN surface as `ParseError`.
With input `x` followed by an I/O fault, the fault interrupts the
`key = value` statement (the missing `=` check sees end-of-stream), and the
parse returns `ParseError`, not `IOError`. -/
theorem C7_counterexample :
    parse_from_chars ['x'] (.ioerr 0) = some (.error .ParseError) ∧
    parse_from_chars ['x'] (.ioerr 0) ≠ some (.error (.IOError 0)) := by
  refine ⟨rfl, ?_⟩
  intro h
  rw [show parse_from_chars ['x'] (.ioerr 0) = some (.error .ParseError)
    from rfl] at h
  cases h

/-- C7 (amended): the top-level parse returns `Ok` only on a clean
end-of-input (a non-EOF fault is never reported as success), returns
`Err(IOError(e))` only when the underlying source's terminal condition is
the fault `e` (a clean EOF is never reported as an `IOError`), and a clean
empty input parses to the empty table; however a read fault that
interrupts a statement mid-parse surfaces as `ParseError`, not `IOError`. -/
theorem C7_io_error_taxonomy :
    (∀ (cs : List Char) (e : Nat) (r : Except Error Value),
      parse_from_chars cs .eof = some r → r ≠ .error (.IOError e)) ∧
    (∀ (cs : List Char) (e : Nat) (r : Except Error Value),
      parse_from_chars cs (.ioerr e) = some r → ∀ v, r ≠ .ok v) ∧
    (∀ (cs : List Char) (t : Term) (e : Nat),
      parse_from_chars cs t = some (.error (.IOError e)) → t = .ioerr e) ∧
    parse_from_chars [] .eof = some (.ok (.Table false [])) := by
  have key : ∀ (cs : List Char) (t : Term) (e : Nat),
      parse_from_chars cs t = some (.error (.IOError e)) → t = .ioerr e := by
    intro cs t e h
    rw [parse_from_chars] at h
    rcases hp : parseLoop t (cs.length + 1) cs [] [] with _ | r'
    · rw [hp] at h
      cases h
    · rw [hp] at h
      cases r' with
      | error e' =>
        simp only [] at h
        cases h
        exact parseLoop_ioerror_source t _ cs [] [] e hp
      | ok root =>
        simp only [] at h
        cases h
  have key2 : ∀ (cs : List Char) (t : Term) (v : Value),
      parse_from_chars cs t = some (.ok v) → t = .eof := by
    intro cs t v h
    rw [parse_from_chars] at h
    rcases hp : parseLoop t (cs.length + 1) cs [] [] with _ | r'
    · rw [hp] at h
      cases h
    · rw [hp] at h
      cases r' with
      | error e' =>
        simp only [] at h
        cases h
      | ok root =>
        simp only [] at h
        cases h
        exact parseLoop_ok_source t _ cs [] [] root hp
  refine ⟨?_, ?_, key, rfl⟩
  · intro cs e r h hr
    subst hr
    have := key cs .eof e h
    cases this
  · intro cs e r h v hr
    subst hr
    have := key2 cs (.ioerr e) v h
    cases this

theorem C7_io_error_taxonomy_witness :
    ((.ok (.Table false [("a", Value.PosInt 1)]) : Except Error Value) ≠
      .error (.IOError 7)) ∧
    ((.error (.IOError 3) : Except Error Value) ≠ .ok (.Table false [])) ∧
    Term.ioerr 3 = Term.ioerr 3 :=
  ⟨C7_io_error_taxonomy.1 "a = 1".data 7
      (.ok (.Table false [("a", Value.PosInt 1)])) rfl,
   C7_io_error_taxonomy.2.1 [] 3 (.error (.IOError 3)) rfl (.Table false []),
   C7_io_error_taxonomy.2.2.1 [] (.ioerr 3) 3 rfl⟩


/-! ## Helper lemmas: remaining forward runs (booleans, floats, strings) -/

theorem parse_value_true_run {fuel : Nat} {l rest : List Char}
    (hsk : skip_whitespaces_and_comments l = 't' :: 'r' :: 'u' :: 'e' :: rest) :
    parse_value (fuel + 1) l = (.Boolean true, rest) := by
  rw [parse_value, hsk]
  rfl

theorem parse_value_false_run {fuel : Nat} {l rest : List Char}
    (hsk : skip_whitespaces_and_comments l =
      'f' :: 'a' :: 'l' :: 's' :: 'e' :: rest) :
    parse_value (fuel + 1) l = (.Boolean false, rest) := by
  rw [parse_value, hsk]
  rfl

theorem read_float_mantissa_loop_run :
    ∀ (ds : List Nat) (rest : List Char) (num div : Rat),
      (∀ d ∈ ds, d < 10) →
      (∀ c l2, rest = c :: l2 → char_to_digit c 10 = none) →
      read_float_mantissa_loop num div (ds.map digit_char ++ rest) =
        (num + frac_val_from div ds, rest) := by
  intro ds
  induction ds with
  | nil =>
    intro rest num div _ hrest
    rw [List.map_nil, List.nil_append, frac_val_from, add_zero]
    cases rest with
    | nil => rw [read_float_mantissa_loop]
    | cons c l2 =>
      simp only [read_float_mantissa_loop, hrest c l2 rfl]
  | cons d ds' ih =>
    intro rest num div hlt hrest
    rw [List.map_cons, List.cons_append]
    simp only [read_float_mantissa_loop,
      char_to_digit_digit_char (hlt d (by simp))]
    rw [ih rest (num + (d : Rat) / div) (div * 10)
      (fun x hx => hlt x (by simp [hx])) hrest, frac_val_from, add_assoc]

/-- An unsigned digit run, a dot and a digit mantissa parse as an exact
`Float`. -/
theorem parse_value_float_run {fuel : Nat} {l cs : List Char} {ds : List Nat}
    {rest : List Char} (hne : cs ≠ []) (hdec : ∀ c ∈ cs, '0' ≤ c ∧ c ≤ '9')
    (hds : ds ≠ []) (hlt : ∀ d ∈ ds, d < 10)
    (hsk : skip_whitespaces_and_comments l =
      cs ++ '.' :: (ds.map digit_char ++ rest))
    (hrest : ∀ c l2, rest = c :: l2 → char_to_digit c 10 = none) :
    parse_value (fuel + 1) l =
      (.Float ((decValMod cs : Rat) + frac_val ds), rest) := by
  cases cs with
  | nil => exact absurd rfl hne
  | cons c cs' =>
    rw [List.cons_append] at hsk
    rw [parse_value_to_digits hsk (hdec c (by simp)), parse_value_digits,
      ← List.cons_append,
      read_digits_run ('.' :: (ds.map digit_char ++ rest)) hne hdec
        (fun x l2 hx => by cases hx; rfl)]
    simp only []
    cases ds with
    | nil => exact absurd rfl hds
    | cons d ds' =>
      have hd9 := hlt d (by simp)
      obtain ⟨h1, h2, _, _⟩ := digit_char_dec hd9
      rw [List.map_cons, List.cons_append, parse_float_rest, if_pos ⟨h1, h2⟩]
      simp only [read_float_mantissa]
      rw [← List.cons_append, ← List.map_cons,
        read_float_mantissa_loop_run (d :: ds') rest 0 10 hlt hrest]
      simp only []
      rw [show ((decValMod (c :: cs') : Rat) + (0 + frac_val_from 10 (d :: ds'))) * 1
          = (decValMod (c :: cs') : Rat) + frac_val (d :: ds') from by
        rw [frac_val]; ring]

/-- A signed digit run, a dot and a digit mantissa parse as an exact
negative `Float`. -/
theorem parse_value_float_neg_run {fuel : Nat} {l cs : List Char}
    {ds : List Nat} {rest : List Char} (hne : cs ≠ [])
    (hdec : ∀ c ∈ cs, '0' ≤ c ∧ c ≤ '9') (hds : ds ≠ [])
    (hlt : ∀ d ∈ ds, d < 10)
    (hsk : skip_whitespaces_and_comments l =
      '-' :: (cs ++ '.' :: (ds.map digit_char ++ rest)))
    (hrest : ∀ c l2, rest = c :: l2 → char_to_digit c 10 = none) :
    parse_value (fuel + 1) l =
      (.Float (-((decValMod cs : Rat) + frac_val ds)), rest) := by
  rw [parse_value_to_neg hsk, parse_value_neg,
    read_digits_run ('.' :: (ds.map digit_char ++ rest)) hne hdec
      (fun x l2 hx => by cases hx; rfl)]
  simp only []
  cases ds with
  | nil => exact absurd rfl hds
  | cons d ds' =>
    have hd9 := hlt d (by simp)
    obtain ⟨h1, h2, _, _⟩ := digit_char_dec hd9
    rw [List.map_cons, List.cons_append, parse_float_rest, if_pos ⟨h1, h2⟩]
    simp only [read_float_mantissa]
    rw [← List.cons_append, ← List.map_cons,
      read_float_mantissa_loop_run (d :: ds') rest 0 10 hlt hrest]
    simp only []
    rw [show ((decValMod cs : Rat) + (0 + frac_val_from 10 (d :: ds'))) * (-1)
        = -((decValMod cs : Rat) + frac_val (d :: ds')) from by
      rw [frac_val]; ring]

theorem psl_esc_quote (f : Nat) (a t : List Char) :
    parse_string_loop (f + 1) a ('\\' :: '"' :: t) =
      parse_string_loop f (a ++ ['"']) t := rfl

theorem psl_esc_backslash (f : Nat) (a t : List Char) :
    parse_string_loop (f + 1) a ('\\' :: '\\' :: t) =
      parse_string_loop f (a ++ ['\\']) t := rfl

theorem psl_esc_b (f : Nat) (a t : List Char) :
    parse_string_loop (f + 1) a ('\\' :: 'b' :: t) =
      parse_string_loop f (a ++ ['\u0008']) t := rfl

theorem psl_esc_t (f : Nat) (a t : List Char) :
    parse_string_loop (f + 1) a ('\\' :: 't' :: t) =
      parse_string_loop f (a ++ ['\t']) t := rfl

theorem psl_esc_n (f : Nat) (a t : List Char) :
    parse_string_loop (f + 1) a ('\\' :: 'n' :: t) =
      parse_string_loop f (a ++ ['\n']) t := rfl

theorem psl_esc_f (f : Nat) (a t : List Char) :
    parse_string_loop (f + 1) a ('\\' :: 'f' :: t) =
      parse_string_loop f (a ++ ['\u000C']) t := rfl

theorem psl_esc_r (f : Nat) (a t : List Char) :
    parse_string_loop (f + 1) a ('\\' :: 'r' :: t) =
      parse_string_loop f (a ++ ['\r']) t := rfl

theorem psl_end (f : Nat) (a t : List Char) :
    parse_string_loop (f + 1) a ('"' :: t) = (some (String.mk a), t) := rfl

theorem psl_plain (f : Nat) (a t : List Char) (c : Char)
    (h0 : ¬(c = '\r' ∨ c = '\n' ∨ c = '\u000C' ∨ c = '\u0008'))
    (h2 : ¬(c = '\\')) (h1 : ¬(c = '"')) :
    parse_string_loop (f + 1) a (c :: t) =
      parse_string_loop f (a ++ [c]) t := by
  rw [parse_string_loop.eq_def]
  simp only []
  rw [if_neg h0, if_neg h2, if_neg h1]

theorem esc_len (s : List Char) : s.length ≤ (s.flatMap esc_char).length := by
  induction s with
  | nil => simp
  | cons c s' ih =>
    rw [List.flatMap_cons, List.length_append, List.length_cons]
    have h1 : 1 ≤ (esc_char c).length := by
      rw [esc_char]
      split_ifs <;> simp
    omega

theorem parse_string_loop_run :
    ∀ (s : List Char) (fuel : Nat) (acc rest : List Char), s.length < fuel →
      parse_string_loop fuel acc (s.flatMap esc_char ++ '"' :: rest) =
        (some (String.mk (acc ++ s)), rest) := by
  intro s
  induction s with
  | nil =>
    intro fuel acc rest hf
    cases fuel with
    | zero => exact absurd hf (Nat.not_lt_zero _)
    | succ f =>
      rw [List.flatMap_nil, List.nil_append, List.append_nil]
      exact psl_end f acc rest
  | cons c s' ih =>
    intro fuel acc rest hf
    cases fuel with
    | zero => exact absurd hf (Nat.not_lt_zero _)
    | succ f =>
      have hf' : s'.length < f := by
        simp only [List.length_cons] at hf
        omega
      rw [List.flatMap_cons, List.append_assoc]
      by_cases h1 : c = '"'
      · subst h1
        rw [show esc_char '"' = ['\\', '"'] from rfl]
        simp only [List.cons_append, List.nil_append]
        rw [psl_esc_quote, ih f (acc ++ ['"']) rest hf']
        simp only [List.append_assoc, List.cons_append, List.nil_append]
      · by_cases h2 : c = '\\'
        · subst h2
          rw [show esc_char '\\' = ['\\', '\\'] from rfl]
          simp only [List.cons_append, List.nil_append]
          rw [psl_esc_backslash, ih f (acc ++ ['\\']) rest hf']
          simp only [List.append_assoc, List.cons_append, List.nil_append]
        · by_cases h3 : c = '\u0008'
          · subst h3
            rw [show esc_char '\u0008' = ['\\', 'b'] from rfl]
            simp only [List.cons_append, List.nil_append]
            rw [psl_esc_b, ih f (acc ++ ['\u0008']) rest hf']
            simp only [List.append_assoc, List.cons_append, List.nil_append]
          · by_cases h4 : c = '\t'
            · subst h4
              rw [show esc_char '\t' = ['\\', 't'] from rfl]
              simp only [List.cons_append, List.nil_append]
              rw [psl_esc_t, ih f (acc ++ ['\t']) rest hf']
              simp only [List.append_assoc, List.cons_append, List.nil_append]
            · by_cases h5 : c = '\n'
              · subst h5
                rw [show esc_char '\n' = ['\\', 'n'] from rfl]
                simp only [List.cons_append, List.nil_append]
                rw [psl_esc_n, ih f (acc ++ ['\n']) rest hf']
                simp only [List.append_assoc, List.cons_append, List.nil_append]
              · by_cases h6 : c = '\u000C'
                · subst h6
                  rw [show esc_char '\u000C' = ['\\', 'f'] from rfl]
                  simp only [List.cons_append, List.nil_append]
                  rw [psl_esc_f, ih f (acc ++ ['\u000C']) rest hf']
                  simp only [List.append_assoc, List.cons_append, List.nil_append]
                · by_cases h7 : c = '\r'
                  · subst h7
                    rw [show esc_char '\r' = ['\\', 'r'] from rfl]
                    simp only [List.cons_append, List.nil_append]
                    rw [psl_esc_r, ih f (acc ++ ['\r']) rest hf']
                    simp only [List.append_assoc, List.cons_append, List.nil_append]
                  · have hesc : esc_char c = [c] := by
                      rw [esc_char, if_neg h1, if_neg h2, if_neg h3, if_neg h4,
                        if_neg h5, if_neg h6, if_neg h7]
                    rw [hesc]
                    simp only [List.cons_append, List.nil_append]
                    rw [psl_plain f acc _ c
                      (fun hh => by
                        rcases hh with rfl | rfl | rfl | rfl
                        · exact h7 rfl
                        · exact h5 rfl
                        · exact h6 rfl
                        · exact h3 rfl)
                      h2 h1, ih f (acc ++ [c]) rest hf']
                    simp only [List.append_assoc, List.cons_append, List.nil_append]

/-- A quoted, escaped string literal parses back to the original string. -/
theorem parse_value_str_run {fuel : Nat} {l : List Char} {s : List Char}
    (hsk : skip_whitespaces_and_comments l = render_string s) :
    parse_value (fuel + 1) l = (.Str (String.mk s), []) := by
  rw [render_string] at hsk
  rw [parse_value, hsk]
  simp only []
  rw [if_neg (by decide), if_neg (by decide), if_neg (by decide),
    if_neg (by decide), if_neg (by decide), if_pos trivial]
  rw [parse_string, advance_if_cons]
  simp only []
  rw [parse_string_loop_run s ((s.flatMap esc_char ++ ['"']).length + 1) [] []
    (by
      have h1 := esc_len s
      simp only [List.length_append, List.length_cons, List.length_nil]
      omega)]
  simp only [List.nil_append]

/-! ## Helper lemmas: the one-pair document `key = <literal>` -/

theorem pair_step_doc {lit : List Char} {v : Value}
    (hv : parse_value (2 * lit.length + 4) (' ' :: lit) = (v, []))
    (hnv : v ≠ .NoValue) :
    pair_step 'k' ('e' :: 'y' :: ' ' :: '=' :: ' ' :: lit) [] [] =
      .cont [] [("key", v)] [] := by
  rw [pair_step]
  rw [show read_token ident_char [] ('k' :: 'e' :: 'y' :: ' ' :: '=' :: ' ' :: lit)
      = (['k', 'e', 'y'], ' ' :: '=' :: ' ' :: lit) from rfl]
  simp only []
  rw [show skip_whitespaces (' ' :: '=' :: ' ' :: lit) = '=' :: ' ' :: lit
      from rfl, advance_if_cons]
  simp only []
  rw [show 2 * (' ' :: lit).length + 2 = 2 * lit.length + 4 from rfl, hv]
  cases v with
  | NoValue => exact absurd rfl hnv
  | Boolean b => rfl
  | PosInt n => rfl
  | NegInt n => rfl
  | Float q => rfl
  | Str s => rfl
  | Datetime y mo d hr mi s => rfl
  | Array es => rfl
  | TableArray ta => rfl
  | Table b m => rfl

/-- Any value accepted by `parse_value` on `' ' :: lit` with nothing left
makes the whole document `key = <lit>` parse to the one-pair table and the
lookup of `"key"` return it. -/
theorem doc_run {lit : List Char} {v : Value}
    (hv : ∀ fuel, parse_value (fuel + 1) (' ' :: lit) = (v, []))
    (hnv : v ≠ .NoValue) : doc_ok lit v := by
  have hv' : parse_value (2 * lit.length + 4) (' ' :: lit) = (v, []) :=
    hv (2 * lit.length + 3)
  rw [doc_ok]
  refine ⟨?_, ?_⟩
  · rw [parse_from_chars,
      show doc_chars lit = 'k' :: 'e' :: 'y' :: ' ' :: '=' :: ' ' :: lit from rfl,
      parseLoop,
      skip_wc_cons (by decide) (by decide)]
    simp only []
    rw [if_neg (by decide), pair_step_doc hv' hnv]
    simp only []
    rw [show ('k' :: 'e' :: 'y' :: ' ' :: '=' :: ' ' :: lit).length
        = lit.length + 5 + 1 from rfl,
      parseLoop,
      show skip_whitespaces_and_comments ([] : List Char) = [] from rfl]
    rfl
  · rfl

theorem skip_wc_of_digit_head {c : Char} (ls : List Char)
    (hc : '0' ≤ c ∧ c ≤ '9') :
    skip_whitespaces_and_comments (c :: ls) = c :: ls := by
  obtain ⟨h48, h57⟩ := char_dec_toNat hc.1 hc.2
  refine skip_wc_cons ?_ ?_
  · intro hh
    rcases hh with rfl | rfl | rfl | rfl
    all_goals exact absurd h48 (by decide)
  · intro hh
    subst hh
    exact absurd h48 (by decide)

theorem skip_wc_natToChars (n : Nat) (rest : List Char) :
    skip_whitespaces_and_comments (natToChars n ++ rest) =
      natToChars n ++ rest := by
  cases hcs : natToChars n with
  | nil => exact absurd hcs (natToChars_ne_nil n)
  | cons c ls =>
    rw [List.cons_append]
    exact skip_wc_of_digit_head _ (natToChars_dec n c (by rw [hcs]; simp))

/-- Unsigned decimal literals round-trip. -/
theorem doc_posint {n : Nat} (h : n < 2 ^ 64) :
    doc_ok (natToChars n) (.PosInt n) := by
  refine doc_run (fun fuel => ?_) (fun hh => Value.noConfusion hh)
  have h0 := skip_wc_natToChars n []
  rw [List.append_nil] at h0
  have hsk : skip_whitespaces_and_comments (' ' :: natToChars n) =
      natToChars n ++ [] := by
    rw [skip_wc_space, List.append_nil]
    exact h0
  rw [parse_value_posint_run (natToChars_ne_nil n) (natToChars_dec n) hsk
    (fun c l2 hx => List.noConfusion hx), decValMod_natToChars n h]

/-- Signed decimal literals round-trip. -/
theorem doc_negint {n : Nat} (h : n < 2 ^ 64) :
    doc_ok ('-' :: natToChars n) (.NegInt n) := by
  refine doc_run (fun fuel => ?_) (fun hh => Value.noConfusion hh)
  have hsk : skip_whitespaces_and_comments (' ' :: '-' :: natToChars n) =
      '-' :: (natToChars n ++ []) := by
    rw [List.append_nil, skip_wc_space]
    exact skip_wc_cons (by decide) (by decide)
  rw [parse_value_negint_run (natToChars_ne_nil n) (natToChars_dec n) hsk
    (fun c l2 hx => List.noConfusion hx), decValMod_natToChars n h]

/-- Unsigned float literals round-trip (exactly, in `Rat`). -/
theorem doc_float_pos {n : Nat} {ds : List Nat} (h : n < 2 ^ 64)
    (hds : ds ≠ []) (hlt : ∀ d ∈ ds, d < 10) :
    doc_ok (natToChars n ++ '.' :: ds.map digit_char)
      (.Float ((n : Rat) + frac_val ds)) := by
  refine doc_run (fun fuel => ?_) (fun hh => Value.noConfusion hh)
  have hsk : skip_whitespaces_and_comments
      (' ' :: (natToChars n ++ '.' :: ds.map digit_char)) =
      natToChars n ++ '.' :: (ds.map digit_char ++ []) := by
    rw [List.append_nil, skip_wc_space]
    exact skip_wc_natToChars n _
  rw [parse_value_float_run (natToChars_ne_nil n) (natToChars_dec n) hds hlt
    hsk (fun c l2 hx => List.noConfusion hx), decValMod_natToChars n h]

/-- Signed float literals round-trip (exactly, in `Rat`). -/
theorem doc_float_neg {n : Nat} {ds : List Nat} (h : n < 2 ^ 64)
    (hds : ds ≠ []) (hlt : ∀ d ∈ ds, d < 10) :
    doc_ok ('-' :: (natToChars n ++ '.' :: ds.map digit_char))
      (.Float (-((n : Rat) + frac_val ds))) := by
  refine doc_run (fun fuel => ?_) (fun hh => Value.noConfusion hh)
  have hsk : skip_whitespaces_and_comments
      (' ' :: '-' :: (natToChars n ++ '.' :: ds.map digit_char)) =
      '-' :: (natToChars n ++ '.' :: (ds.map digit_char ++ [])) := by
    rw [List.append_nil, skip_wc_space]
    exact skip_wc_cons (by decide) (by decide)
  rw [parse_value_float_neg_run (natToChars_ne_nil n) (natToChars_dec n) hds
    hlt hsk (fun c l2 hx => List.noConfusion hx), decValMod_natToChars n h]

/-- Quoted string literals with escapes round-trip. -/
theorem doc_str (s : List Char) :
    doc_ok (render_string s) (.Str (String.mk s)) := by
  refine doc_run (fun fuel => ?_) (fun hh => Value.noConfusion hh)
  refine parse_value_str_run ?_
  rw [skip_wc_space, render_string]
  exact skip_wc_cons (by decide) (by decide)

/-- In-bounds datetime literals round-trip. -/
theorem doc_datetime {y mo d hr mi s : Nat} (hy : y ≤ 9999)
    (hb : dt_bounds mo d hr mi s) :
    doc_ok (dt_chars y mo d hr mi s) (.Datetime y mo d hr mi s) := by
  refine doc_run (fun fuel => ?_) (fun hh => Value.noConfusion hh)
  have hsk : skip_whitespaces_and_comments (' ' :: dt_chars y mo d hr mi s) =
      pad4 y ++ '-' :: dt_rest_chars mo d hr mi s := by
    rw [skip_wc_space, dt_chars]
    obtain ⟨h1, h2, _, _⟩ := digit_char_dec (show y / 1000 < 10 from by omega)
    rw [pad4, List.cons_append]
    exact skip_wc_of_digit_head _ ⟨h1, h2⟩
  rw [parse_value_datetime_entry (show (pad4 y).length = 4 from rfl)
      (pad4_dec hy) hsk, decValMod_pad4 hy,
    show dt_rest_chars mo d hr mi s = dt_rest_chars mo d hr mi s ++ []
      from (List.append_nil _).symm,
    parse_datetime_rest_forward y [] hb, Nat.mod_eq_of_lt (by omega)]

/-! ## Claim C9 -/

/-- C9: every supported primitive literal round-trips — parsing the document
`key = <literal>` succeeds and `lookup("key")` on the resulting tree returns
the expected typed value: `Boolean` for `true`/`false`, `PosInt`/`NegInt`
with magnitude and sign for decimal runs, exact `Float` for dotted decimals,
`Str` with escapes decoded for quoted strings (including a `\uXXXX` escape),
and an in-bounds `Datetime`. -/
theorem C9_scalar_roundtrip :
    doc_ok "true".data (.Boolean true) ∧
    doc_ok "false".data (.Boolean false) ∧
    (∀ n : Nat, n < 2 ^ 64 → doc_ok (natToChars n) (.PosInt n)) ∧
    (∀ n : Nat, n < 2 ^ 64 → doc_ok ('-' :: natToChars n) (.NegInt n)) ∧
    (∀ (n : Nat) (ds : List Nat), n < 2 ^ 64 → ds ≠ [] →
      (∀ d ∈ ds, d < 10) →
      doc_ok (natToChars n ++ '.' :: ds.map digit_char)
        (.Float ((n : Rat) + frac_val ds))) ∧
    (∀ (n : Nat) (ds : List Nat), n < 2 ^ 64 → ds ≠ [] →
      (∀ d ∈ ds, d < 10) →
      doc_ok ('-' :: (natToChars n ++ '.' :: ds.map digit_char))
        (.Float (-((n : Rat) + frac_val ds)))) ∧
    (∀ s : List Char, doc_ok (render_string s) (.Str (String.mk s))) ∧
    (∀ y mo d h mi s : Nat, y ≤ 9999 → dt_bounds mo d h mi s →
      doc_ok (dt_chars y mo d h mi s) (.Datetime y mo d h mi s)) ∧
    doc_ok "\"A\\u0042C\"".data (.Str "ABC") :=
  ⟨⟨rfl, rfl⟩, ⟨rfl, rfl⟩,
   fun _ h => doc_posint h,
   fun _ h => doc_negint h,
   fun _ _ h hds hlt => doc_float_pos h hds hlt,
   fun _ _ h hds hlt => doc_float_neg h hds hlt,
   doc_str,
   fun _ _ _ _ _ _ hy hb => doc_datetime hy hb,
   ⟨rfl, rfl⟩⟩

theorem C9_scalar_roundtrip_witness :
    doc_ok (natToChars 42) (.PosInt 42) ∧
    doc_ok ('-' :: natToChars 7) (.NegInt 7) ∧
    doc_ok (natToChars 1 ++ '.' :: [5].map digit_char)
      (.Float ((1 : Rat) + frac_val [5])) ∧
    doc_ok ('-' :: (natToChars 2 ++ '.' :: [2, 5].map digit_char))
      (.Float (-((2 : Rat) + frac_val [2, 5]))) ∧
    doc_ok (render_string "a\"b".data) (.Str (String.mk "a\"b".data)) ∧
    doc_ok (dt_chars 1979 5 27 7 32 0) (.Datetime 1979 5 27 7 32 0) :=
  ⟨C9_scalar_roundtrip.2.2.1 42 (by decide),
   C9_scalar_roundtrip.2.2.2.1 7 (by decide),
   C9_scalar_roundtrip.2.2.2.2.1 1 [5] (by decide) (by decide) (by decide),
   C9_scalar_roundtrip.2.2.2.2.2.1 2 [2, 5] (by decide) (by decide)
     (by decide),
   C9_scalar_roundtrip.2.2.2.2.2.2.1 "a\"b".data,
   C9_scalar_roundtrip.2.2.2.2.2.2.2.1 1979 5 27 7 32 0 (by decide)
     ⟨by decide, by decide, by decide, by decide, by decide, by decide,
      by decide⟩⟩
